import Mathlib

/-!
Shallow embedding of the allocation engine of `teams-people-allocation`
(`src/models.js` and `src/optimizer.js`), together with proofs of the
behavioural properties stated about it.

Numbers are modelled by exact rationals.  At the places where the source
can produce the JavaScript values `NaN`, `Infinity` or `-Infinity`
(every division site, and the score accumulation fed by a division),
the embedding uses the type `JsVal` below, which mirrors the IEEE
special-value arithmetic and comparison rules that JavaScript uses.
-/

namespace TeamsAlloc

/-- A JavaScript number outcome: a finite value, `NaN`, or a signed infinity. -/
inductive JsVal where
  | num (q : ℚ)
  | nan
  | posInf
  | negInf
deriving DecidableEq

/-- JavaScript addition on `JsVal` (IEEE rules: `NaN` absorbs,
`Infinity + -Infinity = NaN`). -/
def JsVal.add : JsVal → JsVal → JsVal
  | .num a, .num b => .num (a + b)
  | .nan, _ => .nan
  | _, .nan => .nan
  | .posInf, .negInf => .nan
  | .negInf, .posInf => .nan
  | .posInf, _ => .posInf
  | _, .posInf => .posInf
  | .negInf, _ => .negInf
  | _, .negInf => .negInf

/-- JavaScript negation on `JsVal`. -/
def JsVal.neg : JsVal → JsVal
  | .num a => .num (-a)
  | .nan => .nan
  | .posInf => .negInf
  | .negInf => .posInf

/-- JavaScript subtraction on `JsVal`. -/
def JsVal.sub (a b : JsVal) : JsVal := a.add b.neg

/-- JavaScript multiplication on `JsVal` (`Infinity * 0 = NaN`). -/
def JsVal.mul : JsVal → JsVal → JsVal
  | .num a, .num b => .num (a * b)
  | .nan, _ => .nan
  | _, .nan => .nan
  | .posInf, .posInf => .posInf
  | .posInf, .negInf => .negInf
  | .negInf, .posInf => .negInf
  | .negInf, .negInf => .posInf
  | .posInf, .num b => if 0 < b then .posInf else if b < 0 then .negInf else .nan
  | .num a, .posInf => if 0 < a then .posInf else if a < 0 then .negInf else .nan
  | .negInf, .num b => if 0 < b then .negInf else if b < 0 then .posInf else .nan
  | .num a, .negInf => if 0 < a then .negInf else if a < 0 then .posInf else .nan

/-- JavaScript division of two finite values: division by zero yields a signed
infinity, and `0 / 0` yields `NaN`. -/
def jsDiv (a b : ℚ) : JsVal :=
  if b ≠ 0 then .num (a / b)
  else if 0 < a then .posInf
  else if a < 0 then .negInf
  else .nan

/-- JavaScript strict less-than on `JsVal`: any comparison with `NaN` is false. -/
def JsVal.lt : JsVal → JsVal → Bool
  | .num a, .num b => a < b
  | .nan, _ => false
  | _, .nan => false
  | .negInf, .negInf => false
  | .negInf, _ => true
  | _, .negInf => false
  | .posInf, _ => false
  | _, .posInf => true

/-- `v < q` for a finite right-hand side, with JavaScript `NaN` semantics. -/
def JsVal.ltQ : JsVal → ℚ → Bool
  | .num a, q => a < q
  | .nan, _ => false
  | .posInf, _ => false
  | .negInf, _ => true

/-- `v > q` for a finite right-hand side, with JavaScript `NaN` semantics. -/
def JsVal.gtQ : JsVal → ℚ → Bool
  | .num a, q => q < a
  | .nan, _ => false
  | .posInf, _ => true
  | .negInf, _ => false

/-- `v >= q` for a finite right-hand side, with JavaScript `NaN` semantics. -/
def JsVal.geQ : JsVal → ℚ → Bool
  | .num a, q => q ≤ a
  | .nan, _ => false
  | .posInf, _ => true
  | .negInf, _ => false

/-- `v` is a finite number. -/
def JsVal.isFinite : JsVal → Bool
  | .num _ => true
  | _ => false

/-- `Math.round` on a finite value: half rounds toward positive infinity. -/
def jround (q : ℚ) : ℚ := ((⌊q + 1/2⌋ : ℤ) : ℚ)

/-- `Math.round` lifted to `JsVal` (`Math.round(NaN) = NaN`, infinities are kept). -/
def JsVal.round : JsVal → JsVal
  | .num q => .num (jround q)
  | v => v

/-- `Math.round(x)` as an integer, for the stored percentage fields. -/
def jroundInt (q : ℚ) : ℤ := ⌊q + 1/2⌋

/-- `Math.round(x * 100) / 100`, the two-decimal rounding used in the summary. -/
def round2 (q : ℚ) : ℚ := ((⌊q * 100 + 1/2⌋ : ℤ) : ℚ) / 100

/-- Whether `needle` occurs at the start of `haystack` (character lists). -/
def seqStartsWith : List Char → List Char → Bool
  | [], _ => true
  | _ :: _, [] => false
  | a :: as, b :: bs => a = b && seqStartsWith as bs

/-- Whether `needle` occurs contiguously inside `haystack` (character lists). -/
def seqContains (needle : List Char) : List Char → Bool
  | [] => needle.isEmpty
  | c :: cs => seqStartsWith needle (c :: cs) || seqContains needle cs

/-- `s.includes(t)` of JavaScript: `t` occurs as a substring of `s`. -/
def strIncludes (s t : String) : Bool := seqContains t.toList s.toList

/-- `toLowerCase` (the strings this program compares are ASCII, where the
character-wise lowering agrees with the JavaScript method). -/
def strToLower (s : String) : String := String.mk (s.toList.map Char.toLower)

/-- Entry of `member.assignments`: `{item, allocation, percentage}`. -/
structure MemberAssignment where
  item : String
  allocation : ℚ
  percentage : ℤ
deriving DecidableEq

/-- Entry of `item.assignedMembers`: `{member, allocation, percentage}`. -/
structure ItemAssignment where
  member : String
  allocation : ℚ
  percentage : ℤ
deriving DecidableEq

/-- `TeamMember` of `src/models.js`.  `allocatedCapacity` and `assignments`
are the engine-owned mutable fields. -/
structure TeamMember where
  name : String
  level : String
  skills : List String
  capacity : ℚ
  interests : List String
  careerGoals : List String
  allocatedCapacity : ℚ
  assignments : List MemberAssignment
deriving DecidableEq

instance : Inhabited TeamMember := ⟨⟨"", "", [], 0, [], [], 0, []⟩⟩

/-- The optional `effortBreakdown` record of a roadmap item. -/
structure EffortBreakdown where
  ios : ℚ
  android : ℚ
  web : ℚ
  backend : ℚ
  total : ℚ
deriving DecidableEq

/-- The four `allocationStatus` labels assigned by `getItemStatus`. -/
inductive ItemStatus where
  | fullyStaffed
  | adequatelyStaffed
  | underStaffed
  | notStaffed
deriving DecidableEq

/-- `RoadmapItem` of `src/models.js`.  `assignedMembers` and
`allocationStatus` are the engine-owned mutable fields; `allocationStatus`
is `none` until the engine sets it. -/
structure RoadmapItem where
  name : String
  description : String
  size : ℚ
  complexity : ℚ
  requiredSkills : List String
  domain : String
  minLevel : String
  careerOpportunities : List String
  effortBreakdown : Option EffortBreakdown
  assignedMembers : List ItemAssignment
  allocationStatus : Option ItemStatus
deriving DecidableEq

instance : Inhabited RoadmapItem := ⟨⟨"", "", 0, 0, [], "", "", [], none, [], none⟩⟩

/-- `getAvailableCapacity`: `Math.max(0, capacity - allocatedCapacity)`. -/
def TeamMember.getAvailableCapacity (m : TeamMember) : ℚ :=
  max 0 (m.capacity - m.allocatedCapacity)

/-- The bidirectional case-insensitive substring test used by `hasSkill`,
`hasInterest` and `hasCareerGoal`. -/
def fuzzyEq (a b : String) : Bool :=
  strIncludes (strToLower a) (strToLower b) || strIncludes (strToLower b) (strToLower a)

/-- `hasSkill`: some skill fuzzily matches the query. -/
def TeamMember.hasSkill (m : TeamMember) (skill : String) : Bool :=
  m.skills.any fun s => fuzzyEq s skill

/-- `hasInterest`: some interest fuzzily matches the area. -/
def TeamMember.hasInterest (m : TeamMember) (area : String) : Bool :=
  m.interests.any fun i => fuzzyEq i area

/-- `hasCareerGoal`: some career goal fuzzily matches the query. -/
def TeamMember.hasCareerGoal (m : TeamMember) (goal : String) : Bool :=
  m.careerGoals.any fun g => fuzzyEq g goal

/-- The level-weight table shared by `getLevelWeight` and `calculateScore`
(lookup on the lowercased level, unknown levels default to `1.0`). -/
def levelWeightTable (s : String) : ℚ :=
  if s = "intern" then 1/2
  else if s = "junior" then 7/10
  else if s = "mid" then 1
  else if s = "senior" then 13/10
  else if s = "staff" then 3/2
  else if s = "principal" then 17/10
  else if s = "architect" then 9/5
  else 1

/-- `getLevelWeight`. -/
def TeamMember.getLevelWeight (m : TeamMember) : ℚ :=
  levelWeightTable (strToLower m.level)

/-- `calculatePriority`: `size * 0.6 + complexity * 0.4`.  The source stores
this in a field at construction and never changes it, so the embedding
derives it. -/
def RoadmapItem.priority (i : RoadmapItem) : ℚ :=
  i.size * (3/5) + i.complexity * (2/5)

/-- `getTotalAllocation`: `reduce((sum, a) => sum + a.allocation, 0)`. -/
def RoadmapItem.getTotalAllocation (i : RoadmapItem) : ℚ :=
  i.assignedMembers.foldl (fun sum a => sum + a.allocation) 0

/-- `getRequiredCapacity`: LoE-based estimate when `effortBreakdown.total > 0`,
else the `(size/5) * (complexity/5) * 2` heuristic. -/
def RoadmapItem.getRequiredCapacity (i : RoadmapItem) : ℚ :=
  match i.effortBreakdown with
  | some e =>
      if 0 < e.total then (e.total / 12) * (1 + (i.complexity - 1) * (1/10))
      else (i.size / 5) * (i.complexity / 5) * 2
  | none => (i.size / 5) * (i.complexity / 5) * 2

/-- `isFullyStaffed`. -/
def RoadmapItem.isFullyStaffed (i : RoadmapItem) : Bool :=
  i.getRequiredCapacity ≤ i.getTotalAllocation

/-- Keyword list of the `ios` platform (shared by the scoring bonus and the
missing-FTE analysis). -/
def platformSkillsIos : List String :=
  ["ios", "swift", "objective-c", "mobile development", "mobile", "app development"]

/-- Keyword list of the `android` platform. -/
def platformSkillsAndroid : List String :=
  ["android", "kotlin", "java", "mobile development", "mobile", "app development"]

/-- Keyword list of the `web` platform. -/
def platformSkillsWeb : List String :=
  ["frontend", "javascript", "react", "vue", "angular", "html", "css", "web development"]

/-- Keyword list of the `backend` platform. -/
def platformSkillsBackend : List String :=
  ["backend", "api", "node.js", "python", "java", "database", "sql", "server"]

/-- One-directional platform skill test of `calculatePlatformBonus`:
some lowercased member skill contains some platform keyword. -/
def memberHasPlatformSkill (m : TeamMember) (relevantSkills : List String) : Bool :=
  relevantSkills.any fun skill =>
    (m.skills.map strToLower).any fun memberSkill => strIncludes memberSkill skill

/-- The contribution of a single platform inside `calculatePlatformBonus`:
`(platformEffort / effort.total) * 30` on a skill match, for platforms with
positive effort.  The division is a genuine JavaScript division: it is an
infinity when `effort.total` is zero. -/
def platformTerm (m : TeamMember) (e : EffortBreakdown)
    (platformEffort : ℚ) (relevantSkills : List String) : JsVal :=
  if 0 < platformEffort then
    if memberHasPlatformSkill m relevantSkills then
      (jsDiv platformEffort e.total).mul (.num 30)
    else .num 0
  else .num 0

/-- `calculatePlatformBonus` of `Allocation` in `src/models.js`. -/
def calculatePlatformBonus (m : TeamMember) (item : RoadmapItem) : JsVal :=
  match item.effortBreakdown with
  | none => .num 0
  | some e =>
      let b1 := (JsVal.num 0).add (platformTerm m e e.ios platformSkillsIos)
      let b2 := b1.add (platformTerm m e e.android platformSkillsAndroid)
      let b3 := b2.add (platformTerm m e e.web platformSkillsWeb)
      let b4 := b3.add (platformTerm m e e.backend platformSkillsBackend)
      let platformCount :=
        (([e.ios, e.android, e.web, e.backend] : List ℚ).filter (fun q => decide (0 < q))).length
      let isFullStack :=
        (["frontend", "backend", "full-stack", "fullstack"] : List String).any fun skill =>
          (m.skills.map strToLower).any fun memberSkill => strIncludes memberSkill skill
      if 0 < e.total ∧ 2 < platformCount ∧ isFullStack then b4.add (.num 15) else b4

/-- `calculateScore` of `Allocation` in `src/models.js`, as a function of the
member, the item and the allocation fraction. -/
def calculateScore (m : TeamMember) (item : RoadmapItem) (allocation : ℚ) : JsVal :=
  let skillMatches := (item.requiredSkills.filter (fun skill => m.hasSkill skill)).length
  let skillScore : ℚ := (skillMatches : ℚ) / ((max 1 item.requiredSkills.length : ℕ) : ℚ)
  let score := (JsVal.num 0).add (.num (skillScore * 35))
  let score := match item.effortBreakdown with
    | some _ => score.add (calculatePlatformBonus m item)
    | none => score
  let score := if m.hasInterest item.domain then score.add (.num 25) else score
  let careerMatches :=
    (item.careerOpportunities.filter (fun opp => m.hasCareerGoal opp)).length
  let score := if 0 < careerMatches then score.add (.num 20) else score
  let memberLevelWeight := m.getLevelWeight
  let minLevelWeight := levelWeightTable (strToLower item.minLevel)
  let score :=
    if minLevelWeight ≤ memberLevelWeight then
      let score := score.add (.num 10)
      if 4 ≤ item.complexity ∧ 13/10 ≤ memberLevelWeight then score.add (.num 10) else score
    else score.sub (.num 20)
  let score := score.add (.num (item.priority * 5))
  score.add (.num (allocation * 15))

/-- A committed `Allocation` record.  The source stores references to the
member and the item; downstream code consults the item reference only for
`item.name`, so the embedding stores that name, and it snapshots the member
(whose fields read afterwards, `name` and `capacity`, are immutable). -/
structure Allocation where
  member : TeamMember
  itemName : String
  allocation : ℚ
  score : JsVal
deriving DecidableEq

/-- The `Allocation` constructor: stores the triple and the derived score. -/
def Allocation.make (member : TeamMember) (item : RoadmapItem) (allocation : ℚ) : Allocation :=
  ⟨member, item.name, allocation, calculateScore member item allocation⟩

/-- The per-run reset of a member performed at the top of `optimize`. -/
def resetMember (m : TeamMember) : TeamMember :=
  { m with allocatedCapacity := 0, assignments := [] }

/-- The per-run reset of an item performed at the top of `optimize`
(only `assignedMembers` is cleared there; `allocationStatus` is not). -/
def resetItem (i : RoadmapItem) : RoadmapItem :=
  { i with assignedMembers := [] }

/-- `findPotentialAllocations`: every member with more than `0.1` available
capacity, paired with a probe score at the fixed fraction `0.3`.  Members are
identified by their position in the team list (the embedding of the object
references the source keeps). -/
def findPotentialAllocations (teamMembers : List TeamMember) (item : RoadmapItem) :
    List (ℕ × JsVal) :=
  ((teamMembers.enum.filter fun p => p.2.getAvailableCapacity > 1/10).map
    fun p => (p.1, calculateScore p.2 item (3/10)))

/-- Sort-order test derived from the comparator `(a, b) => b.score - a.score`
under the ECMAScript rule that a `NaN` comparator result counts as `0`:
`a` may stay before `b` unless the comparator is positive. -/
def scoreBefore (a b : ℕ × JsVal) : Bool :=
  match JsVal.sub b.2 a.2 with
  | .num q => decide (q ≤ 0)
  | .posInf => false
  | _ => true

/-- Insert an element into a list, before the first entry `b` with `le a b`.
Ties keep the inserted (originally earlier) element first. -/
def sortInsert (le : α → α → Bool) (a : α) : List α → List α
  | [] => [a]
  | b :: bs => if le a b then a :: b :: bs else b :: sortInsert le a bs

/-- A stable sort (ECMAScript `Array.prototype.sort` is specified stable;
the embedding uses a stable insertion sort). -/
def stableSort (le : α → α → Bool) : List α → List α
  | [] => []
  | a :: as => sortInsert le a (stableSort le as)

/-- `getItemStatus`: classify by `allocated / required` with JavaScript
division and comparison semantics. -/
def getItemStatus (item : RoadmapItem) (allocatedCapacity : ℚ) : ItemStatus :=
  let ratio := jsDiv allocatedCapacity item.getRequiredCapacity
  if ratio.geQ (9/10) then .fullyStaffed
  else if ratio.geQ (3/5) then .adequatelyStaffed
  else if ratio.geQ (3/10) then .underStaffed
  else .notStaffed

/-- State threaded through the candidate walk of `allocateItem`. -/
structure ItemStep where
  members : List TeamMember
  item : RoadmapItem
  allocations : List Allocation
  remaining : ℚ
deriving DecidableEq

/-- The member-side bookkeeping of one commit: bump `allocatedCapacity` and
append the `{item, allocation, percentage}` assignment record. -/
def commitMember (m : TeamMember) (itemName : String) (amount : ℚ) : TeamMember :=
  { m with allocatedCapacity := m.allocatedCapacity + amount,
           assignments := m.assignments ++
             [⟨itemName, amount, jroundInt (amount * 100)⟩] }

/-- The item-side bookkeeping of one commit: append the
`{member, allocation, percentage}` record to `assignedMembers`. -/
def commitItem (item : RoadmapItem) (memberName : String) (amount : ℚ) : RoadmapItem :=
  { item with assignedMembers := item.assignedMembers ++
      [⟨memberName, amount, jroundInt (amount * 100)⟩] }

/-- The candidate walk of `allocateItem`: visit the sorted candidates while
capacity remains, committing `min(remaining, available, 0.5)` whenever that
amount exceeds `0.1`. -/
def allocateLoop : List (ℕ × JsVal) → List TeamMember → RoadmapItem →
    List Allocation → ℚ → ItemStep
  | [], ms, item, allocs, remaining => ⟨ms, item, allocs, remaining⟩
  | (j, _score) :: rest, ms, item, allocs, remaining =>
    if remaining ≤ 0 then ⟨ms, item, allocs, remaining⟩
    else
      let member := ms.getD j default
      let availableCapacity := member.getAvailableCapacity
      if availableCapacity ≤ 0 then allocateLoop rest ms item allocs remaining
      else
        let allocationAmount := min (min remaining availableCapacity) (1/2)
        if 1/10 < allocationAmount then
          allocateLoop rest (ms.set j (commitMember member item.name allocationAmount))
            (commitItem item member.name allocationAmount)
            (allocs ++ [Allocation.make member item allocationAmount])
            (remaining - allocationAmount)
        else allocateLoop rest ms item allocs remaining

/-- `allocateItem`: rank the candidates, walk them, then set the status of
the item from the achieved capacity. -/
def allocateItem (teamMembers : List TeamMember) (item : RoadmapItem) : ItemStep :=
  let requiredCapacity := item.getRequiredCapacity
  let potentials := findPotentialAllocations teamMembers item
  let sorted := stableSort scoreBefore potentials
  let s := allocateLoop sorted teamMembers item [] requiredCapacity
  { s with item := { s.item with
      allocationStatus := some (getItemStatus s.item (requiredCapacity - s.remaining)) } }

/-- Engine state: the member list, the item list and the accumulated allocations of the run. -/
structure RunState where
  members : List TeamMember
  items : List RoadmapItem
  allocations : List Allocation
deriving DecidableEq

/-- Process the items designated by a list of positions, in that order
(the embedding of iterating the priority-sorted copy of `roadmapItems`
while mutating the shared objects). -/
def runItems : List ℕ → RunState → RunState
  | [], s => s
  | i :: rest, s =>
    let step := allocateItem s.members (s.items.getD i default)
    runItems rest ⟨step.members, s.items.set i step.item, s.allocations ++ step.allocations⟩

/-- Sort-order test for items derived from the comparator
`(a, b) => b.priority - a.priority`: descending priority, ties stable. -/
def itemBefore (items : List RoadmapItem) (i j : ℕ) : Bool :=
  decide ((items.getD j default).priority ≤ (items.getD i default).priority)

/-- The positions of the items in allocation order: a stable sort of
`0, ..., n-1` by descending priority. -/
def sortedItemIdxs (items : List RoadmapItem) : List ℕ :=
  stableSort (itemBefore items) (List.range items.length)

/-- An item of the report enriched with its `requiredCapacity` and
`totalAllocation` snapshot values. -/
structure EnhancedItem where
  item : RoadmapItem
  requiredCapacity : ℚ
  totalAllocation : ℚ
deriving DecidableEq

/-- An entry of the `allocations` list of the report. -/
structure ReportAllocation where
  member : String
  item : String
  allocation : ℚ
  score : JsVal
deriving DecidableEq

/-- The `summary` block of the report. -/
structure Summary where
  totalTeamCapacity : ℚ
  totalAllocatedCapacity : ℚ
  utilizationRate : JsVal
  itemsCount : ℕ
  fullyStaffedCount : ℕ
  totalAssignments : ℕ
deriving DecidableEq

/-- The `itemsByStatus` partition of the report. -/
structure ItemsByStatus where
  fullyStaffed : List EnhancedItem
  adequatelyStaffed : List EnhancedItem
  underStaffed : List EnhancedItem
  notStaffed : List EnhancedItem
deriving DecidableEq

/-- A recommendation line, modelled structurally (the source renders each of
these as a fixed template string over the shown numbers). -/
inductive Recommendation where
  | notStaffedAlert (count : ℕ)
  | missingFTE (types : List (String × ℚ))
  | underStaffedAlert (count : ℕ)
  | underUtilizedNote (count : ℕ)
  | overUtilizedNote (count : ℕ)
  | balanced
deriving DecidableEq

/-- The report returned by `optimize`. -/
structure Report where
  summary : Summary
  allocations : List ReportAllocation
  teamMembers : List TeamMember
  roadmapItems : List RoadmapItem
  itemsByStatus : ItemsByStatus
  underUtilized : List TeamMember
  overUtilized : List TeamMember
  recommendations : List Recommendation
deriving DecidableEq

/-- `getAvailableCapacityForSkills`: total remaining capacity of the members
whose skills bidirectionally fuzzily match one of the given keywords. -/
def getAvailableCapacityForSkills (teamMembers : List TeamMember)
    (skills : List String) : ℚ :=
  teamMembers.foldl
    (fun totalCapacity member =>
      let hasRelevantSkill := skills.any fun skill =>
        member.skills.any fun memberSkill =>
          strIncludes (strToLower memberSkill) (strToLower skill) ||
            strIncludes (strToLower skill) (strToLower memberSkill)
      if hasRelevantSkill then totalCapacity + member.getAvailableCapacity
      else totalCapacity)
    0

/-- `missingTypes[key] = (missingTypes[key] || 0) + amount`, key insertion
order preserved as in a JavaScript object. -/
def addShortage (l : List (String × ℚ)) (key : String) (amount : ℚ) :
    List (String × ℚ) :=
  if l.any fun p => p.1 = key then
    l.map fun p => if p.1 = key then (p.1, p.2 + amount) else p
  else l ++ [(key, amount)]

/-- One platform check inside `analyzeMissingFTETypes`: accumulate
`max(0, effortWeeks/13 - availableCapacityForSkills)` when positive. -/
def analyzePlatform (teamMembers : List TeamMember) (missing : List (String × ℚ))
    (label : String) (skills : List String) (effortWeeks : ℚ) : List (String × ℚ) :=
  if 0 < effortWeeks then
    let neededFTE := effortWeeks / 13
    let availableCapacity := getAvailableCapacityForSkills teamMembers skills
    let shortage := max 0 (neededFTE - availableCapacity)
    if 0 < shortage then addShortage missing label shortage else missing
  else missing

/-- `analyzeMissingFTETypes` over the not-staffed items. -/
def analyzeMissingFTETypes (teamMembers : List TeamMember)
    (unstaffedItems : List RoadmapItem) : List (String × ℚ) :=
  unstaffedItems.foldl
    (fun missing item =>
      match item.effortBreakdown with
      | none => missing
      | some e =>
        let missing := analyzePlatform teamMembers missing "iOS Developer" platformSkillsIos e.ios
        let missing := analyzePlatform teamMembers missing "Android Developer" platformSkillsAndroid e.android
        let missing := analyzePlatform teamMembers missing "Web Developer" platformSkillsWeb e.web
        analyzePlatform teamMembers missing "Backend Developer" platformSkillsBackend e.backend)
    []

/-- `generateRecommendations`, with each template string rendered as a
`Recommendation` value. -/
def generateRecommendations (teamMembers : List TeamMember)
    (notStaffedItems underStaffedItems : List RoadmapItem)
    (underUtilized overUtilized : List TeamMember) : List Recommendation :=
  let recommendations : List Recommendation := []
  let recommendations :=
    if 0 < notStaffedItems.length then
      let recommendations := recommendations ++ [.notStaffedAlert notStaffedItems.length]
      let missingFTETypes := analyzeMissingFTETypes teamMembers notStaffedItems
      if 0 < missingFTETypes.length then recommendations ++ [.missingFTE missingFTETypes]
      else recommendations
    else recommendations
  let recommendations :=
    if 0 < underStaffedItems.length then recommendations ++ [.underStaffedAlert underStaffedItems.length]
    else recommendations
  let recommendations :=
    if 0 < underUtilized.length then recommendations ++ [.underUtilizedNote underUtilized.length]
    else recommendations
  let recommendations :=
    if 0 < overUtilized.length then recommendations ++ [.overUtilizedNote overUtilized.length]
    else recommendations
  if recommendations.length = 0 then [.balanced] else recommendations

/-- `generateReport` of `src/optimizer.js`. -/
def generateReport (teamMembers : List TeamMember) (roadmapItems : List RoadmapItem)
    (allocations : List Allocation) : Report :=
  let totalTeamCapacity := teamMembers.foldl (fun sum member => sum + member.capacity) 0
  let totalAllocatedCapacity :=
    teamMembers.foldl (fun sum member => sum + member.allocatedCapacity) 0
  let utilizationRate := (jsDiv totalAllocatedCapacity totalTeamCapacity).mul (.num 100)
  let fullyStaffedItems :=
    roadmapItems.filter fun item => decide (item.allocationStatus = some .fullyStaffed)
  let adequatelyStaffedItems :=
    roadmapItems.filter fun item => decide (item.allocationStatus = some .adequatelyStaffed)
  let underStaffedItems :=
    roadmapItems.filter fun item => decide (item.allocationStatus = some .underStaffed)
  let notStaffedItems :=
    roadmapItems.filter fun item => decide (item.allocationStatus = some .notStaffed)
  let underUtilized :=
    teamMembers.filter fun member =>
      (jsDiv member.allocatedCapacity member.capacity).ltQ (7/10)
  let overUtilized :=
    teamMembers.filter fun member =>
      (jsDiv member.allocatedCapacity member.capacity).gtQ (19/20)
  let enhance := fun (items : List RoadmapItem) =>
    items.map fun item =>
      EnhancedItem.mk item item.getRequiredCapacity item.getTotalAllocation
  { summary :=
      { totalTeamCapacity := round2 totalTeamCapacity
        totalAllocatedCapacity := round2 totalAllocatedCapacity
        utilizationRate := utilizationRate.round
        itemsCount := roadmapItems.length
        fullyStaffedCount := fullyStaffedItems.length
        totalAssignments := allocations.length }
    allocations := allocations.map fun a => ⟨a.member.name, a.itemName, a.allocation, a.score⟩
    teamMembers := teamMembers
    roadmapItems := roadmapItems
    itemsByStatus :=
      ⟨enhance fullyStaffedItems, enhance adequatelyStaffedItems,
        enhance underStaffedItems, enhance notStaffedItems⟩
    underUtilized := underUtilized
    overUtilized := overUtilized
    recommendations :=
      generateRecommendations teamMembers notStaffedItems underStaffedItems
        underUtilized overUtilized }

/-- The full engine run: reset the engine-owned fields, process the items in
descending priority order, and return the final state. -/
def optimizeRun (teamMembers : List TeamMember) (roadmapItems : List RoadmapItem) :
    RunState :=
  let s0 : RunState := ⟨teamMembers.map resetMember, roadmapItems.map resetItem, []⟩
  runItems (sortedItemIdxs s0.items) s0

/-- `optimize`: run the engine and build the report. -/
def optimize (teamMembers : List TeamMember) (roadmapItems : List RoadmapItem) : Report :=
  let s1 := optimizeRun teamMembers roadmapItems
  generateReport s1.members s1.items s1.allocations

/-! ### Auxiliary definitions used by the statements and proofs -/

/-- Drop the `allocationStatus` field (the only item field the engine writes
that the reset at the top of `optimize` does not clear). -/
def eraseStatus (i : RoadmapItem) : RoadmapItem := { i with allocationStatus := none }

/-- Drop every engine-owned item field. -/
def stripEngine (i : RoadmapItem) : RoadmapItem :=
  { i with assignedMembers := [], allocationStatus := none }

/-- Sum of the committed amounts of an internal allocation list. -/
def allocsSum (allocations : List Allocation) : ℚ :=
  (allocations.map fun a => a.allocation).sum

/-- Sum of the committed amounts of the allocation list of the report. -/
def reportAllocsSum (allocations : List ReportAllocation) : ℚ :=
  (allocations.map fun a => a.allocation).sum

/-- Sum of the `allocatedCapacity` bookkeeping fields of the members. -/
def membersAllocSum (teamMembers : List TeamMember) : ℚ :=
  (teamMembers.map fun m => m.allocatedCapacity).sum

/-- Sum of the `getTotalAllocation` values of the items. -/
def itemsAllocSum (roadmapItems : List RoadmapItem) : ℚ :=
  (roadmapItems.map RoadmapItem.getTotalAllocation).sum

/-- The member-state invariant maintained by the engine: the allocated
capacity is nonnegative and never exceeds `max 0 capacity`. -/
def memOk (m : TeamMember) : Prop :=
  0 ≤ m.allocatedCapacity ∧ m.allocatedCapacity ≤ max 0 m.capacity

/-- The score contribution of every signal group except the level check:
skill match, platform bonus, interest and career alignment. -/
def scoreBase (m : TeamMember) (item : RoadmapItem) : JsVal :=
  let skillMatches := (item.requiredSkills.filter (fun skill => m.hasSkill skill)).length
  let skillScore : ℚ := (skillMatches : ℚ) / ((max 1 item.requiredSkills.length : ℕ) : ℚ)
  let score := (JsVal.num 0).add (.num (skillScore * 35))
  let score := match item.effortBreakdown with
    | some _ => score.add (calculatePlatformBonus m item)
    | none => score
  let score := if m.hasInterest item.domain then score.add (.num 25) else score
  let careerMatches :=
    (item.careerOpportunities.filter (fun opp => m.hasCareerGoal opp)).length
  if 0 < careerMatches then score.add (.num 20) else score

/-- The finite score contribution of the level-appropriateness check. -/
def levelScore (m : TeamMember) (item : RoadmapItem) : ℚ :=
  if levelWeightTable (strToLower item.minLevel) ≤ m.getLevelWeight then
    if 4 ≤ item.complexity ∧ 13/10 ≤ m.getLevelWeight then 20 else 10
  else -20

/-! ### Concrete fixtures used by counterexamples and witnesses -/

/-- A mid-level member with full capacity. -/
def exA : TeamMember := ⟨"a", "mid", [], 1, [], [], 0, []⟩

/-- A mid-level member with capacity `0.8`. -/
def exB : TeamMember := ⟨"b", "mid", [], 4/5, [], [], 0, []⟩

/-- A member with zero capacity. -/
def exZ : TeamMember := ⟨"z", "mid", [], 0, [], [], 0, []⟩

/-- A size-4, complexity-3 item (required capacity `0.96`). -/
def exItem : RoadmapItem := ⟨"i", "", 4, 3, [], "", "junior", [], none, [], none⟩

/-- A size-5, complexity-5 item (required capacity `2`). -/
def exBigItem : RoadmapItem := ⟨"big", "", 5, 5, [], "", "junior", [], none, [], none⟩

/-- An item whose required capacity evaluates to `0`. -/
def exZeroItem : RoadmapItem := ⟨"zero", "", 0, 0, [], "", "junior", [], none, [], none⟩

/-- An item with an inconsistent effort breakdown (`total = 0` but positive
iOS effort), which drives the platform-bonus division to infinity. -/
def exInfItem : RoadmapItem := ⟨"x", "", 1, 1, [], "", "mid", [], some ⟨1, 0, 0, 0, 0⟩, [], none⟩

/-- A junior member with an iOS skill. -/
def exJun : TeamMember := ⟨"j", "junior", ["ios"], 1, [], [], 0, []⟩

/-- A senior member with the same iOS skill. -/
def exSen : TeamMember := ⟨"s", "senior", ["ios"], 1, [], [], 0, []⟩

/-- A junior member with no skills. -/
def exJunPlain : TeamMember := ⟨"j", "junior", [], 1, [], [], 0, []⟩

/-- A senior member with no skills. -/
def exSenPlain : TeamMember := ⟨"s", "senior", [], 1, [], [], 0, []⟩

/-- A plain mid-minimum-level item without effort data. -/
def exPlainItem : RoadmapItem := ⟨"p", "", 3, 3, [], "", "mid", [], none, [], none⟩

/-! ### Generic list lemmas -/

theorem listGetD_eq_default {α : Type _} (l : List α) (d : α) :
    ∀ {n : ℕ}, l.length ≤ n → l.getD n d = d := by
  induction l with
  | nil => intro n _; simp
  | cons a t ih =>
    intro n h
    cases n with
    | zero => simp at h
    | succ n => simpa using ih (by simpa using h)

theorem listGetD_set_self {α : Type _} (l : List α) (a d : α) :
    ∀ {i : ℕ}, i < l.length → (l.set i a).getD i d = a := by
  induction l with
  | nil => intro i h; simp at h
  | cons b t ih =>
    intro i h
    cases i with
    | zero => simp
    | succ i => simpa using ih (by simpa using h)

theorem listGetD_set_ne {α : Type _} (l : List α) (a d : α) :
    ∀ {i k : ℕ}, i ≠ k → (l.set i a).getD k d = l.getD k d := by
  induction l with
  | nil => intro i k _; simp
  | cons b t ih =>
    intro i k h
    cases i with
    | zero =>
      cases k with
      | zero => exact absurd rfl h
      | succ k => simp
    | succ i =>
      cases k with
      | zero => simp
      | succ k => simpa using ih fun hik => h (by simpa using hik)

theorem listSet_getD_self {α : Type _} (l : List α) (d : α) :
    ∀ (i : ℕ), l.set i (l.getD i d) = l := by
  induction l with
  | nil => intro i; simp
  | cons b t ih =>
    intro i
    cases i with
    | zero => simp
    | succ i => simpa using ih i

theorem listGetD_map {α β : Type _} (f : α → β) (l : List α) (d : α) :
    ∀ (k : ℕ), (l.map f).getD k (f d) = f (l.getD k d) := by
  induction l with
  | nil => intro k; simp
  | cons b t ih =>
    intro k
    cases k with
    | zero => simp
    | succ k => simp only [List.map_cons, List.getD_cons_succ]; exact ih k

theorem listGetD_mem {α : Type _} (l : List α) (d : α) :
    ∀ {i : ℕ}, i < l.length → l.getD i d ∈ l := by
  induction l with
  | nil => intro i h; simp at h
  | cons b t ih =>
    intro i h
    cases i with
    | zero => simp
    | succ i =>
      simp only [List.getD_cons_succ]
      exact List.mem_cons_of_mem _ (ih (by simpa using h))

theorem listMem_iff_getD {α : Type _} (l : List α) (d a : α) :
    a ∈ l ↔ ∃ k, k < l.length ∧ l.getD k d = a := by
  constructor
  · intro h
    induction l with
    | nil => simp at h
    | cons b t ih =>
      rcases List.mem_cons.mp h with h | h
      · exact ⟨0, by simp, by simp [h.symm]⟩
      · rcases ih h with ⟨k, hk, hget⟩
        exact ⟨k + 1, by simpa using hk, by simpa using hget⟩
  · rintro ⟨k, hk, rfl⟩
    exact listGetD_mem l d hk

theorem listEq_of_getD {α : Type _} (d : α) :
    ∀ (l1 l2 : List α), l1.length = l2.length →
      (∀ k, l1.getD k d = l2.getD k d) → l1 = l2 := by
  intro l1
  induction l1 with
  | nil =>
    intro l2 hlen _
    cases l2 with
    | nil => rfl
    | cons b t => simp at hlen
  | cons a t ih =>
    intro l2 hlen h
    cases l2 with
    | nil => simp at hlen
    | cons b t2 =>
      have h0 := h 0
      simp only [List.getD_cons_zero] at h0
      have := ih t2 (by simpa using hlen) fun k => by simpa using h (k + 1)
      rw [h0, this]

theorem listSumMap_set {α : Type _} (f : α → ℚ) (a d : α) :
    ∀ (l : List α) {i : ℕ}, i < l.length →
      ((l.set i a).map f).sum = (l.map f).sum - f (l.getD i d) + f a := by
  intro l
  induction l with
  | nil => intro i h; simp at h
  | cons b t ih =>
    intro i h
    cases i with
    | zero => simp [List.sum_cons]; ring
    | succ i =>
      have := ih (by simpa using h)
      simp only [List.set_cons_succ, List.map_cons, List.sum_cons, List.getD_cons_succ, this]
      ring

theorem listFoldlAdd {α : Type _} (f : α → ℚ) :
    ∀ (l : List α) (init : ℚ),
      l.foldl (fun s x => s + f x) init = init + (l.map f).sum := by
  intro l
  induction l with
  | nil => intro init; simp
  | cons b t ih =>
    intro init
    simp only [List.foldl_cons, List.map_cons, List.sum_cons, ih]
    ring

theorem listSumZero (l : List ℚ) (h : ∀ x ∈ l, 0 ≤ x) (hsum : l.sum = 0) :
    ∀ x ∈ l, x = 0 := by
  induction l with
  | nil => simp
  | cons b t ih =>
    have hb : 0 ≤ b := h b (by simp)
    have ht : ∀ x ∈ t, 0 ≤ x := fun x hx => h x (List.mem_cons_of_mem _ hx)
    have htsum : 0 ≤ t.sum := List.sum_nonneg ht
    simp only [List.sum_cons] at hsum
    have hb0 : b = 0 := by linarith
    have ht0 : t.sum = 0 := by linarith
    intro x hx
    rcases List.mem_cons.mp hx with rfl | hx
    · exact hb0
    · exact ih ht ht0 x hx

/-! ### JsVal lemmas -/

theorem jsAdd_num_num (S : JsVal) (a b : ℚ) :
    (S.add (.num a)).add (.num b) = S.add (.num (a + b)) := by
  cases S <;> simp [JsVal.add, add_assoc]

theorem jsSub_num (S : JsVal) (b : ℚ) : S.sub (.num b) = S.add (.num (-b)) := rfl

/-! ### Engine structure lemmas -/

theorem default_member_available : (default : TeamMember).getAvailableCapacity = 0 := by
  simp [TeamMember.getAvailableCapacity, default]

theorem allocateItem_members (ms : List TeamMember) (item : RoadmapItem) :
    (allocateItem ms item).members =
      (allocateLoop (stableSort scoreBefore (findPotentialAllocations ms item))
        ms item [] item.getRequiredCapacity).members := rfl

theorem allocateItem_allocations (ms : List TeamMember) (item : RoadmapItem) :
    (allocateItem ms item).allocations =
      (allocateLoop (stableSort scoreBefore (findPotentialAllocations ms item))
        ms item [] item.getRequiredCapacity).allocations := rfl

theorem allocateItem_status_isSome (ms : List TeamMember) (item : RoadmapItem) :
    (allocateItem ms item).item.allocationStatus.isSome = true := by
  simp [allocateItem]

theorem allocateLoop_nil (ms : List TeamMember) (item : RoadmapItem)
    (allocs : List Allocation) (rem : ℚ) :
    allocateLoop [] ms item allocs rem = ⟨ms, item, allocs, rem⟩ := rfl

theorem allocateLoop_cons_done {rem : ℚ} (h1 : rem ≤ 0) (j : ℕ) (sc : JsVal)
    (rest : List (ℕ × JsVal)) (ms : List TeamMember) (item : RoadmapItem)
    (allocs : List Allocation) :
    allocateLoop ((j, sc) :: rest) ms item allocs rem = ⟨ms, item, allocs, rem⟩ := by
  simp only [allocateLoop]
  rw [if_pos h1]

theorem allocateLoop_cons_skip {rem : ℚ} {j : ℕ} {ms : List TeamMember}
    (h1 : ¬ rem ≤ 0) (h2 : (ms.getD j default).getAvailableCapacity ≤ 0)
    (sc : JsVal) (rest : List (ℕ × JsVal)) (item : RoadmapItem)
    (allocs : List Allocation) :
    allocateLoop ((j, sc) :: rest) ms item allocs rem =
      allocateLoop rest ms item allocs rem := by
  simp only [allocateLoop]
  rw [if_neg h1, if_pos h2]

theorem allocateLoop_cons_commit {rem : ℚ} {j : ℕ} {ms : List TeamMember}
    (h1 : ¬ rem ≤ 0) (h2 : ¬ (ms.getD j default).getAvailableCapacity ≤ 0)
    (h3 : 1/10 < min (min rem (ms.getD j default).getAvailableCapacity) (1/2))
    (sc : JsVal) (rest : List (ℕ × JsVal)) (item : RoadmapItem)
    (allocs : List Allocation) :
    allocateLoop ((j, sc) :: rest) ms item allocs rem =
      allocateLoop rest
        (ms.set j (commitMember (ms.getD j default) item.name
          (min (min rem (ms.getD j default).getAvailableCapacity) (1/2))))
        (commitItem item (ms.getD j default).name
          (min (min rem (ms.getD j default).getAvailableCapacity) (1/2)))
        (allocs ++ [Allocation.make (ms.getD j default) item
          (min (min rem (ms.getD j default).getAvailableCapacity) (1/2))])
        (rem - min (min rem (ms.getD j default).getAvailableCapacity) (1/2)) := by
  simp only [allocateLoop]
  rw [if_neg h1, if_neg h2, if_pos h3]

theorem allocateLoop_cons_small {rem : ℚ} {j : ℕ} {ms : List TeamMember}
    (h1 : ¬ rem ≤ 0) (h2 : ¬ (ms.getD j default).getAvailableCapacity ≤ 0)
    (h3 : ¬ 1/10 < min (min rem (ms.getD j default).getAvailableCapacity) (1/2))
    (sc : JsVal) (rest : List (ℕ × JsVal)) (item : RoadmapItem)
    (allocs : List Allocation) :
    allocateLoop ((j, sc) :: rest) ms item allocs rem =
      allocateLoop rest ms item allocs rem := by
  simp only [allocateLoop]
  rw [if_neg h1, if_neg h2, if_neg h3]

/-- In the commit branch the candidate position is a genuine one: an
out-of-range position reads the default member, which has no available
capacity. -/
theorem commit_index_lt {j : ℕ} {ms : List TeamMember}
    (h2 : ¬ (ms.getD j default).getAvailableCapacity ≤ 0) : j < ms.length := by
  by_contra hge
  rw [listGetD_eq_default ms default (Nat.le_of_not_lt hge), default_member_available] at h2
  exact h2 le_rfl

/-- Generic preservation of a per-member predicate through the candidate walk:
`Q` only has to survive the commit update. -/
theorem allocateLoop_members_pres (Q : TeamMember → Prop)
    (hQ : ∀ (m : TeamMember) (itemName : String) (amount : ℚ),
      0 < amount → amount ≤ m.getAvailableCapacity → Q m →
      Q (commitMember m itemName amount)) :
    ∀ (cands : List (ℕ × JsVal)) (ms : List TeamMember) (item : RoadmapItem)
      (allocs : List Allocation) (rem : ℚ),
      (∀ m ∈ ms, Q m) →
      ∀ m ∈ (allocateLoop cands ms item allocs rem).members, Q m := by
  intro cands
  induction cands with
  | nil => intro ms item allocs rem h; simpa [allocateLoop_nil] using h
  | cons c rest ih =>
    intro ms item allocs rem h
    obtain ⟨j, sc⟩ := c
    by_cases h1 : rem ≤ 0
    · simpa [allocateLoop_cons_done h1] using h
    · by_cases h2 : (ms.getD j default).getAvailableCapacity ≤ 0
      · rw [allocateLoop_cons_skip h1 h2]
        exact ih ms item allocs rem h
      · by_cases h3 : 1/10 < min (min rem (ms.getD j default).getAvailableCapacity) (1/2)
        · rw [allocateLoop_cons_commit h1 h2 h3]
          apply ih
          intro m hm
          rcases List.mem_or_eq_of_mem_set hm with hm | rfl
          · exact h m hm
          · have hQm : Q (ms.getD j default) :=
              h _ (listGetD_mem ms default (commit_index_lt h2))
            have hpos : 0 < min (min rem (ms.getD j default).getAvailableCapacity) (1/2) :=
              lt_trans (by norm_num) h3
            have hle : min (min rem (ms.getD j default).getAvailableCapacity) (1/2) ≤
                (ms.getD j default).getAvailableCapacity :=
              le_trans (min_le_left _ _) (min_le_right _ _)
            exact hQ _ item.name _ hpos hle hQm
        · rw [allocateLoop_cons_small h1 h2 h3]
          exact ih ms item allocs rem h

/-- Preservation of a per-member predicate through a full run. -/
theorem runItems_members_pres (Q : TeamMember → Prop)
    (hQ : ∀ (m : TeamMember) (itemName : String) (amount : ℚ),
      0 < amount → amount ≤ m.getAvailableCapacity → Q m →
      Q (commitMember m itemName amount)) :
    ∀ (idxs : List ℕ) (s : RunState),
      (∀ m ∈ s.members, Q m) → ∀ m ∈ (runItems idxs s).members, Q m := by
  intro idxs
  induction idxs with
  | nil => intro s h; simpa [runItems] using h
  | cons i rest ih =>
    intro s h
    simp only [runItems]
    apply ih
    intro m hm
    rw [allocateItem_members] at hm
    exact allocateLoop_members_pres Q hQ _ _ _ _ _ h m hm

/-! ### Projections of the report -/

theorem optimize_teamMembers (ms : List TeamMember) (is : List RoadmapItem) :
    (optimize ms is).teamMembers = (optimizeRun ms is).members := rfl

theorem optimize_roadmapItems (ms : List TeamMember) (is : List RoadmapItem) :
    (optimize ms is).roadmapItems = (optimizeRun ms is).items := rfl

theorem optimize_allocations (ms : List TeamMember) (is : List RoadmapItem) :
    (optimize ms is).allocations = (optimizeRun ms is).allocations.map
      (fun a => ⟨a.member.name, a.itemName, a.allocation, a.score⟩) := rfl

theorem optimize_underUtilized (ms : List TeamMember) (is : List RoadmapItem) :
    (optimize ms is).underUtilized = (optimizeRun ms is).members.filter
      (fun member => (jsDiv member.allocatedCapacity member.capacity).ltQ (7/10)) := rfl

theorem optimize_overUtilized (ms : List TeamMember) (is : List RoadmapItem) :
    (optimize ms is).overUtilized = (optimizeRun ms is).members.filter
      (fun member => (jsDiv member.allocatedCapacity member.capacity).gtQ (19/20)) := rfl

theorem optimize_utilizationRate (ms : List TeamMember) (is : List RoadmapItem) :
    (optimize ms is).summary.utilizationRate =
      ((jsDiv ((optimizeRun ms is).members.foldl (fun sum member => sum + member.allocatedCapacity) 0)
          ((optimizeRun ms is).members.foldl (fun sum member => sum + member.capacity) 0)).mul
        (.num 100)).round := rfl

/-! ### The capacity invariant -/

theorem commitMember_capacity (m : TeamMember) (itemName : String) (amount : ℚ) :
    (commitMember m itemName amount).capacity = m.capacity := rfl

theorem commitMember_memOk (m : TeamMember) (itemName : String) (amount : ℚ)
    (hpos : 0 < amount) (hle : amount ≤ m.getAvailableCapacity) (hm : memOk m) :
    memOk (commitMember m itemName amount) := by
  obtain ⟨h0, hmax⟩ := hm
  have havail : amount ≤ max 0 (m.capacity - m.allocatedCapacity) := hle
  have hx : 0 < m.capacity - m.allocatedCapacity := by
    by_contra hxx
    push_neg at hxx
    rw [max_eq_left (by linarith)] at havail
    linarith
  have havail2 : amount ≤ m.capacity - m.allocatedCapacity := by
    rwa [max_eq_right (le_of_lt hx)] at havail
  have hcap : 0 < m.capacity := by linarith
  constructor
  · show 0 ≤ m.allocatedCapacity + amount
    linarith
  · show m.allocatedCapacity + amount ≤ max 0 (commitMember m itemName amount).capacity
    rw [commitMember_capacity, max_eq_right (le_of_lt hcap)]
    linarith

theorem optimizeRun_capacity_pres (ms : List TeamMember) (is : List RoadmapItem)
    (h : ∀ m ∈ ms, 0 ≤ m.capacity) :
    ∀ m ∈ (optimizeRun ms is).members, 0 ≤ m.capacity ∧ memOk m := by
  intro m hm
  simp only [optimizeRun] at hm
  refine runItems_members_pres (fun m => 0 ≤ m.capacity ∧ memOk m) ?_ _ _ ?_ m hm
  · intro m itemName amount hpos hle ⟨hc, hok⟩
    exact ⟨hc, commitMember_memOk m itemName amount hpos hle hok⟩
  · intro m hm0
    rcases List.mem_map.mp hm0 with ⟨m0, hm0mem, rfl⟩
    refine ⟨h m0 hm0mem, le_refl 0, ?_⟩
    exact le_max_left 0 _

theorem optimizeRun_memOk (ms : List TeamMember) (is : List RoadmapItem) :
    ∀ m ∈ (optimizeRun ms is).members, memOk m := by
  intro m hm
  simp only [optimizeRun] at hm
  refine runItems_members_pres memOk ?_ _ _ ?_ m hm
  · intro m itemName amount hpos hle hok
    exact commitMember_memOk m itemName amount hpos hle hok
  · intro m hm0
    rcases List.mem_map.mp hm0 with ⟨m0, _, rfl⟩
    exact ⟨le_refl 0, le_max_left 0 _⟩

/-- C4: after `optimize`, the allocated capacity of every member lies between `0`
and its total capacity, provided every input capacity is nonnegative. -/
theorem optimize_capacity_invariant (ms : List TeamMember) (is : List RoadmapItem)
    (h : ∀ m ∈ ms, 0 ≤ m.capacity) :
    ∀ m ∈ (optimize ms is).teamMembers,
      0 ≤ m.allocatedCapacity ∧ m.allocatedCapacity ≤ m.capacity := by
  intro m hm
  rw [optimize_teamMembers] at hm
  obtain ⟨hcap, h0, hmax⟩ := optimizeRun_capacity_pres ms is h m hm
  exact ⟨h0, by rwa [max_eq_right hcap] at hmax⟩

/-- Witness for C4 at a concrete run. -/
theorem optimize_capacity_invariant_witness :
    0 ≤ exA.allocatedCapacity ∧ exA.allocatedCapacity ≤ exA.capacity :=
  optimize_capacity_invariant [exA] [] (by decide) exA (by decide)

/-- C6: a member with zero capacity appears in neither `underUtilized` nor
`overUtilized` (its ratio is the JavaScript `NaN`, which fails both
comparisons). -/
theorem capacity_zero_not_flagged (ms : List TeamMember) (is : List RoadmapItem)
    (m : TeamMember) (h : m.capacity = 0) :
    m ∉ (optimize ms is).underUtilized ∧ m ∉ (optimize ms is).overUtilized := by
  constructor
  · intro hm
    rw [optimize_underUtilized] at hm
    obtain ⟨hmem, hp⟩ := List.mem_filter.mp hm
    obtain ⟨h0, hmax⟩ := optimizeRun_memOk ms is m hmem
    rw [h] at hmax
    simp only [max_self] at hmax
    have halloc : m.allocatedCapacity = 0 := le_antisymm hmax h0
    rw [halloc, h] at hp
    simp [jsDiv, JsVal.ltQ] at hp
  · intro hm
    rw [optimize_overUtilized] at hm
    obtain ⟨hmem, hp⟩ := List.mem_filter.mp hm
    obtain ⟨h0, hmax⟩ := optimizeRun_memOk ms is m hmem
    rw [h] at hmax
    simp only [max_self] at hmax
    have halloc : m.allocatedCapacity = 0 := le_antisymm hmax h0
    rw [halloc, h] at hp
    simp [jsDiv, JsVal.gtQ] at hp

/-- Witness for C6 at a concrete run. -/
theorem capacity_zero_not_flagged_witness :
    exZ ∉ (optimize [exZ] []).underUtilized ∧ exZ ∉ (optimize [exZ] []).overUtilized :=
  capacity_zero_not_flagged [exZ] [] exZ rfl

/-! ### Committed-allocation invariants -/

/-- Generic preservation of a predicate on committed allocations through the
candidate walk: `P` only has to hold for each newly committed record. -/
theorem allocateLoop_allocs_pres (P : Allocation → Prop)
    (hP : ∀ (m : TeamMember) (item : RoadmapItem) (amount : ℚ),
      1/10 < amount → amount ≤ 1/2 → amount ≤ m.getAvailableCapacity →
      P (Allocation.make m item amount)) :
    ∀ (cands : List (ℕ × JsVal)) (ms : List TeamMember) (item : RoadmapItem)
      (allocs : List Allocation) (rem : ℚ),
      (∀ a ∈ allocs, P a) →
      ∀ a ∈ (allocateLoop cands ms item allocs rem).allocations, P a := by
  intro cands
  induction cands with
  | nil => intro ms item allocs rem h; simpa [allocateLoop_nil] using h
  | cons c rest ih =>
    intro ms item allocs rem h
    obtain ⟨j, sc⟩ := c
    by_cases h1 : rem ≤ 0
    · simpa [allocateLoop_cons_done h1] using h
    · by_cases h2 : (ms.getD j default).getAvailableCapacity ≤ 0
      · rw [allocateLoop_cons_skip h1 h2]
        exact ih ms item allocs rem h
      · by_cases h3 : 1/10 < min (min rem (ms.getD j default).getAvailableCapacity) (1/2)
        · rw [allocateLoop_cons_commit h1 h2 h3]
          apply ih
          intro a ha
          rcases List.mem_append.mp ha with ha | ha
          · exact h a ha
          · rcases List.mem_singleton.mp ha with rfl
            exact hP _ _ _ h3 (min_le_right _ _)
              (le_trans (min_le_left _ _) (min_le_right _ _))
        · rw [allocateLoop_cons_small h1 h2 h3]
          exact ih ms item allocs rem h

/-- Preservation of a predicate on committed allocations through a run. -/
theorem runItems_allocs_pres (P : Allocation → Prop)
    (hP : ∀ (m : TeamMember) (item : RoadmapItem) (amount : ℚ),
      1/10 < amount → amount ≤ 1/2 → amount ≤ m.getAvailableCapacity →
      P (Allocation.make m item amount)) :
    ∀ (idxs : List ℕ) (s : RunState),
      (∀ a ∈ s.allocations, P a) → ∀ a ∈ (runItems idxs s).allocations, P a := by
  intro idxs
  induction idxs with
  | nil => intro s h; simpa [runItems] using h
  | cons i rest ih =>
    intro s h
    simp only [runItems]
    apply ih
    intro a ha
    rcases List.mem_append.mp ha with ha | ha
    · exact h a ha
    · rw [allocateItem_allocations] at ha
      exact allocateLoop_allocs_pres P hP _ _ _ _ _ (by simp) a ha

theorem optimizeRun_allocs_pres (P : Allocation → Prop)
    (hP : ∀ (m : TeamMember) (item : RoadmapItem) (amount : ℚ),
      1/10 < amount → amount ≤ 1/2 → amount ≤ m.getAvailableCapacity →
      P (Allocation.make m item amount)) (ms : List TeamMember) (is : List RoadmapItem) :
    ∀ a ∈ (optimizeRun ms is).allocations, P a := by
  intro a ha
  simp only [optimizeRun] at ha
  exact runItems_allocs_pres P hP _ _ (by simp) a ha

/-- C9: every committed allocation of the report has amount strictly greater
than `0.1`. -/
theorem min_increment (ms : List TeamMember) (is : List RoadmapItem) :
    ∀ a ∈ (optimize ms is).allocations, 1/10 < a.allocation := by
  intro a ha
  rw [optimize_allocations] at ha
  rcases List.mem_map.mp ha with ⟨a0, ha0, rfl⟩
  exact optimizeRun_allocs_pres (fun a => 1/10 < a.allocation)
    (fun _ _ _ h3 _ _ => h3) ms is a0 ha0

/-- Witness for C9 at a concrete run producing one committed allocation. -/
theorem min_increment_witness :
    (1 : ℚ)/10 < (⟨"a", "i", 1/2, .num (71/2)⟩ : ReportAllocation).allocation :=
  min_increment [exA] [exItem] _ (by decide!)

/-- C3 (amended): every committed allocation is bounded by the absolute cap
`0.5`, not by half of the capacity of the member itself. -/
theorem per_item_member_cap (ms : List TeamMember) (is : List RoadmapItem) :
    ∀ a ∈ (optimizeRun ms is).allocations, a.allocation ≤ 1/2 :=
  optimizeRun_allocs_pres (fun a => a.allocation ≤ 1/2)
    (fun _ _ _ _ hhalf _ => hhalf) ms is

/-- Counterexample to C3 as stated: a member with capacity `0.8` receives a
single allocation of `0.5`, which exceeds `0.5 * 0.8 = 0.4`. -/
theorem per_item_member_cap_counterexample :
    ¬ ∀ a ∈ (optimizeRun [exB] [exBigItem]).allocations,
        a.allocation ≤ (1/2) * a.member.capacity := by decide!

/-- Witness for the amended C3 at a concrete run. -/
theorem per_item_member_cap_witness :
    (Allocation.make exB exBigItem (1/2)).allocation ≤ 1/2 :=
  per_item_member_cap [exB] [exBigItem] _ (by decide!)

/-! ### The status partition -/

theorem sortInsert_perm (le : α → α → Bool) (a : α) :
    ∀ l, (sortInsert le a l).Perm (a :: l) := by
  intro l
  induction l with
  | nil => simp [sortInsert]
  | cons b bs ih =>
    simp only [sortInsert]
    by_cases h : le a b = true
    · rw [if_pos h]
    · rw [if_neg h]
      exact List.Perm.trans (List.Perm.cons b ih) (List.Perm.swap a b bs)

theorem stableSort_perm (le : α → α → Bool) : ∀ l, (stableSort le l).Perm l := by
  intro l
  induction l with
  | nil => simp [stableSort]
  | cons a as ih =>
    simp only [stableSort]
    exact List.Perm.trans (sortInsert_perm le a (stableSort le as)) (List.Perm.cons a ih)

theorem sortedItemIdxs_mem (items : List RoadmapItem) (k : ℕ) :
    k ∈ sortedItemIdxs items ↔ k < items.length := by
  rw [sortedItemIdxs, (stableSort_perm (itemBefore items) (List.range items.length)).mem_iff]
  exact List.mem_range

theorem runItems_items_length :
    ∀ (idxs : List ℕ) (s : RunState), (runItems idxs s).items.length = s.items.length := by
  intro idxs
  induction idxs with
  | nil => intro s; rfl
  | cons i rest ih =>
    intro s
    simp only [runItems]
    rw [ih]
    exact List.length_set ..

theorem runItems_frame :
    ∀ (idxs : List ℕ) (s : RunState) (k : ℕ), k ∉ idxs →
      (runItems idxs s).items.getD k default = s.items.getD k default := by
  intro idxs
  induction idxs with
  | nil => intro s k _; rfl
  | cons i rest ih =>
    intro s k hk
    simp only [runItems]
    rw [ih _ k fun h => hk (List.mem_cons_of_mem _ h)]
    exact listGetD_set_ne _ _ _ fun h => hk (h ▸ List.mem_cons_self i rest)

theorem runItems_status :
    ∀ (idxs : List ℕ) (s : RunState), (∀ i ∈ idxs, i < s.items.length) →
      ∀ k ∈ idxs,
        ((runItems idxs s).items.getD k default).allocationStatus.isSome = true := by
  intro idxs
  induction idxs with
  | nil => intro s _ k hk; simp at hk
  | cons i rest ih =>
    intro s hidx k hk
    simp only [runItems]
    by_cases hkr : k ∈ rest
    · refine ih _ ?_ k hkr
      intro j hj
      rw [List.length_set]
      exact hidx j (List.mem_cons_of_mem _ hj)
    · have hki : k = i := by
        rcases List.mem_cons.mp hk with h | h
        · exact h
        · exact absurd h hkr
      subst hki
      rw [runItems_frame rest _ k hkr,
        listGetD_set_self _ _ _ (hidx k (List.mem_cons_self k rest))]
      exact allocateItem_status_isSome _ _

theorem statusPartition (l : List RoadmapItem)
    (h : ∀ i ∈ l, i.allocationStatus.isSome = true) :
    (l.filter fun i => decide (i.allocationStatus = some .fullyStaffed)).length +
      (l.filter fun i => decide (i.allocationStatus = some .adequatelyStaffed)).length +
      (l.filter fun i => decide (i.allocationStatus = some .underStaffed)).length +
      (l.filter fun i => decide (i.allocationStatus = some .notStaffed)).length =
      l.length := by
  induction l with
  | nil => simp
  | cons a t ih =>
    have ha := h a (List.mem_cons_self a t)
    have iht := ih fun i hi => h i (List.mem_cons_of_mem _ hi)
    obtain ⟨st, hst⟩ := Option.isSome_iff_exists.mp ha
    cases st <;> simp [List.filter_cons, hst] <;> omega

theorem optimize_bucket_fully (ms : List TeamMember) (is : List RoadmapItem) :
    (optimize ms is).itemsByStatus.fullyStaffed =
      ((optimizeRun ms is).items.filter fun item =>
        decide (item.allocationStatus = some .fullyStaffed)).map
        (fun item => EnhancedItem.mk item item.getRequiredCapacity item.getTotalAllocation) := rfl

theorem optimize_bucket_adequately (ms : List TeamMember) (is : List RoadmapItem) :
    (optimize ms is).itemsByStatus.adequatelyStaffed =
      ((optimizeRun ms is).items.filter fun item =>
        decide (item.allocationStatus = some .adequatelyStaffed)).map
        (fun item => EnhancedItem.mk item item.getRequiredCapacity item.getTotalAllocation) := rfl

theorem optimize_bucket_under (ms : List TeamMember) (is : List RoadmapItem) :
    (optimize ms is).itemsByStatus.underStaffed =
      ((optimizeRun ms is).items.filter fun item =>
        decide (item.allocationStatus = some .underStaffed)).map
        (fun item => EnhancedItem.mk item item.getRequiredCapacity item.getTotalAllocation) := rfl

theorem optimize_bucket_not (ms : List TeamMember) (is : List RoadmapItem) :
    (optimize ms is).itemsByStatus.notStaffed =
      ((optimizeRun ms is).items.filter fun item =>
        decide (item.allocationStatus = some .notStaffed)).map
        (fun item => EnhancedItem.mk item item.getRequiredCapacity item.getTotalAllocation) := rfl

theorem optimizeRun_items_length (ms : List TeamMember) (is : List RoadmapItem) :
    (optimizeRun ms is).items.length = is.length := by
  simp only [optimizeRun]
  rw [runItems_items_length]
  exact List.length_map ..

theorem optimizeRun_items_status (ms : List TeamMember) (is : List RoadmapItem) :
    ∀ item ∈ (optimizeRun ms is).items, item.allocationStatus.isSome = true := by
  intro item hitem
  obtain ⟨k, hk, hgetd⟩ := (listMem_iff_getD _ default item).mp hitem
  rw [optimizeRun_items_length] at hk
  have hklen : k < (is.map resetItem).length := by simpa using hk
  have hkmem : k ∈ sortedItemIdxs (is.map resetItem) :=
    (sortedItemIdxs_mem _ k).mpr hklen
  have := runItems_status (sortedItemIdxs (is.map resetItem))
    ⟨ms.map resetMember, is.map resetItem, []⟩
    (fun i hi => (sortedItemIdxs_mem _ i).mp hi) k hkmem
  rw [← hgetd]
  exact this

/-- C8: the four status buckets of `itemsByStatus` partition the item list:
every item carries a status after the run, and the bucket sizes add up to the
number of roadmap items. -/
theorem optimize_status_partition (ms : List TeamMember) (is : List RoadmapItem) :
    (∀ item ∈ (optimize ms is).roadmapItems, item.allocationStatus.isSome = true) ∧
    (optimize ms is).itemsByStatus.fullyStaffed.length +
      (optimize ms is).itemsByStatus.adequatelyStaffed.length +
      (optimize ms is).itemsByStatus.underStaffed.length +
      (optimize ms is).itemsByStatus.notStaffed.length =
      (optimize ms is).roadmapItems.length ∧
    (optimize ms is).roadmapItems.length = is.length := by
  refine ⟨?_, ?_, ?_⟩
  · intro item hitem
    rw [optimize_roadmapItems] at hitem
    exact optimizeRun_items_status ms is item hitem
  · rw [optimize_bucket_fully, optimize_bucket_adequately, optimize_bucket_under,
      optimize_bucket_not, optimize_roadmapItems]
    simp only [List.length_map]
    exact statusPartition _ (optimizeRun_items_status ms is)
  · rw [optimize_roadmapItems]
    exact optimizeRun_items_length ms is

/-- Witness for C8 at a concrete run. -/
theorem optimize_status_partition_witness :
    (⟨"i", "", 4, 3, [], "", "junior", [], none, [⟨"a", 1/2, 50⟩],
      some ItemStatus.underStaffed⟩ : RoadmapItem).allocationStatus.isSome = true :=
  (optimize_status_partition [exA] [exItem]).1 _ (by decide!)

/-! ### Items with zero required capacity -/

theorem allocateLoop_rem_nonpos (cands : List (ℕ × JsVal)) (ms : List TeamMember)
    (item : RoadmapItem) (allocs : List Allocation) {rem : ℚ} (h : rem ≤ 0) :
    allocateLoop cands ms item allocs rem = ⟨ms, item, allocs, rem⟩ := by
  cases cands with
  | nil => rfl
  | cons c rest =>
    obtain ⟨j, sc⟩ := c
    exact allocateLoop_cons_done h j sc rest ms item allocs

theorem getItemStatus_zero (item : RoadmapItem) (hreq : item.getRequiredCapacity = 0) :
    getItemStatus item 0 = .notStaffed := by
  simp [getItemStatus, hreq, jsDiv, JsVal.geQ]

theorem allocateItem_req_zero (ms : List TeamMember) (item : RoadmapItem)
    (hreq : item.getRequiredCapacity = 0) :
    allocateItem ms item = ⟨ms, { item with allocationStatus := some .notStaffed }, [], 0⟩ := by
  simp only [allocateItem, hreq]
  rw [allocateLoop_rem_nonpos _ _ _ _ (le_refl (0 : ℚ))]
  simp [getItemStatus_zero item hreq]

theorem commitItem_required (item : RoadmapItem) (memberName : String) (amount : ℚ) :
    (commitItem item memberName amount).getRequiredCapacity = item.getRequiredCapacity := rfl

theorem allocateLoop_item_required :
    ∀ (cands : List (ℕ × JsVal)) (ms : List TeamMember) (item : RoadmapItem)
      (allocs : List Allocation) (rem : ℚ),
      (allocateLoop cands ms item allocs rem).item.getRequiredCapacity =
        item.getRequiredCapacity := by
  intro cands
  induction cands with
  | nil => intro ms item allocs rem; rfl
  | cons c rest ih =>
    intro ms item allocs rem
    obtain ⟨j, sc⟩ := c
    by_cases h1 : rem ≤ 0
    · rw [allocateLoop_cons_done h1]
    · by_cases h2 : (ms.getD j default).getAvailableCapacity ≤ 0
      · rw [allocateLoop_cons_skip h1 h2]; exact ih ..
      · by_cases h3 : 1/10 < min (min rem (ms.getD j default).getAvailableCapacity) (1/2)
        · rw [allocateLoop_cons_commit h1 h2 h3, ih, commitItem_required]
        · rw [allocateLoop_cons_small h1 h2 h3]; exact ih ..

theorem allocateItem_item_required (ms : List TeamMember) (item : RoadmapItem) :
    (allocateItem ms item).item.getRequiredCapacity = item.getRequiredCapacity := by
  simp only [allocateItem]
  exact allocateLoop_item_required ..

theorem runItems_required_pres :
    ∀ (idxs : List ℕ) (s : RunState) (k : ℕ),
      ((runItems idxs s).items.getD k default).getRequiredCapacity =
        (s.items.getD k default).getRequiredCapacity := by
  intro idxs
  induction idxs with
  | nil => intro s k; rfl
  | cons i rest ih =>
    intro s k
    simp only [runItems]
    rw [ih]
    by_cases hki : i = k
    · subst hki
      by_cases hlen : i < s.items.length
      · rw [listGetD_set_self _ _ _ hlen]
        exact allocateItem_item_required ..
      · rw [List.set_eq_of_length_le (Nat.le_of_not_lt hlen)]
    · rw [listGetD_set_ne _ _ _ hki]

theorem runItems_zero_req :
    ∀ (idxs : List ℕ) (s : RunState), idxs.Nodup → (∀ i ∈ idxs, i < s.items.length) →
      ∀ k ∈ idxs,
        (s.items.getD k default).getRequiredCapacity = 0 →
        (runItems idxs s).items.getD k default =
          { s.items.getD k default with allocationStatus := some .notStaffed } := by
  intro idxs
  induction idxs with
  | nil => intro s _ _ k hk; simp at hk
  | cons i rest ih =>
    intro s hnd hidx k hk hreq
    simp only [runItems]
    by_cases hkr : k ∈ rest
    · have hik : i ≠ k := fun h => (List.nodup_cons.mp hnd).1 (h ▸ hkr)
      have hset : (s.items.set i (allocateItem s.members (s.items.getD i default)).item).getD
          k default = s.items.getD k default := listGetD_set_ne _ _ _ hik
      have hrec := ih ⟨(allocateItem s.members (s.items.getD i default)).members,
          s.items.set i (allocateItem s.members (s.items.getD i default)).item,
          s.allocations ++ (allocateItem s.members (s.items.getD i default)).allocations⟩
        (List.nodup_cons.mp hnd).2
        (fun j hj => by
          show j < (s.items.set i _).length
          rw [List.length_set]
          exact hidx j (List.mem_cons_of_mem _ hj))
        k hkr (by rw [show (⟨(allocateItem s.members (s.items.getD i default)).members,
          s.items.set i (allocateItem s.members (s.items.getD i default)).item,
          s.allocations ++ (allocateItem s.members (s.items.getD i default)).allocations⟩ :
            RunState).items = s.items.set i (allocateItem s.members
              (s.items.getD i default)).item from rfl, hset]; exact hreq)
      rw [show (⟨(allocateItem s.members (s.items.getD i default)).members,
          s.items.set i (allocateItem s.members (s.items.getD i default)).item,
          s.allocations ++ (allocateItem s.members (s.items.getD i default)).allocations⟩ :
            RunState).items = s.items.set i (allocateItem s.members
              (s.items.getD i default)).item from rfl, hset] at hrec
      exact hrec
    · have hki : k = i := by
        rcases List.mem_cons.mp hk with h | h
        · exact h
        · exact absurd h hkr
      subst hki
      rw [runItems_frame rest _ k hkr,
        listGetD_set_self _ _ _ (hidx k (List.mem_cons_self k rest)),
        allocateItem_req_zero s.members _ hreq]

/-- C2 (amended): an item whose required capacity is `0` receives zero
committed allocations, and its status is `not-staffed` (the achieved ratio is
the JavaScript `NaN`, which fails every threshold comparison), not
`fully-staffed`. -/
theorem zero_required_item (ms : List TeamMember) (is : List RoadmapItem) :
    ∀ item ∈ (optimize ms is).roadmapItems, item.getRequiredCapacity = 0 →
      item.assignedMembers = [] ∧ item.allocationStatus = some .notStaffed := by
  intro item hitem hreq
  rw [optimize_roadmapItems] at hitem
  obtain ⟨k, hk, hgetd⟩ := (listMem_iff_getD _ default item).mp hitem
  have hentry : (is.map resetItem).getD k default = resetItem (is.getD k default) := by
    have h := listGetD_map resetItem is default k
    rwa [show resetItem default = default from rfl] at h
  have hpres : ((optimizeRun ms is).items.getD k default).getRequiredCapacity =
      ((is.map resetItem).getD k default).getRequiredCapacity :=
    runItems_required_pres (sortedItemIdxs (is.map resetItem))
      ⟨ms.map resetMember, is.map resetItem, []⟩ k
  have hreq_final : ((optimizeRun ms is).items.getD k default).getRequiredCapacity = 0 := by
    rw [hgetd]; exact hreq
  have hreq0 : ((is.map resetItem).getD k default).getRequiredCapacity = 0 :=
    hpres.symm.trans hreq_final
  have hklen : k < (is.map resetItem).length := by
    rw [optimizeRun_items_length] at hk
    simpa using hk
  have hnd : (sortedItemIdxs (is.map resetItem)).Nodup :=
    ((stableSort_perm _ _).nodup_iff).mpr (List.nodup_range _)
  have hfin : (optimizeRun ms is).items.getD k default =
      { (is.map resetItem).getD k default with allocationStatus := some .notStaffed } :=
    runItems_zero_req (sortedItemIdxs (is.map resetItem))
      ⟨ms.map resetMember, is.map resetItem, []⟩ hnd
      (fun i hi => (sortedItemIdxs_mem _ i).mp hi) k
      ((sortedItemIdxs_mem _ k).mpr hklen) hreq0
  have hitem_eq : item = { resetItem (is.getD k default) with
      allocationStatus := some .notStaffed } := by
    rw [← hgetd, hfin, hentry]
  rw [hitem_eq]
  exact ⟨rfl, rfl⟩

/-- Counterexample to C2 as stated: a zero-required item ends the run marked
`not-staffed`, not `fully-staffed`. -/
theorem zero_required_item_counterexample :
    exZeroItem.getRequiredCapacity = 0 ∧
    ((optimize [] [exZeroItem]).roadmapItems.map fun i => i.allocationStatus) =
      [some .notStaffed] ∧
    some ItemStatus.notStaffed ≠ some ItemStatus.fullyStaffed := by decide!

/-- Witness for the amended C2 at a concrete run. -/
theorem zero_required_item_witness :
    (⟨"zero", "", 0, 0, [], "", "junior", [], none, [],
      some ItemStatus.notStaffed⟩ : RoadmapItem).assignedMembers = [] ∧
    (⟨"zero", "", 0, 0, [], "", "junior", [], none, [],
      some ItemStatus.notStaffed⟩ : RoadmapItem).allocationStatus =
      some ItemStatus.notStaffed :=
  zero_required_item [] [exZeroItem] _ (by decide!) (by decide!)

/-! ### Conservation of the allocation bookkeeping -/

theorem getTotalAllocation_eq (item : RoadmapItem) :
    item.getTotalAllocation = (item.assignedMembers.map fun a => a.allocation).sum := by
  unfold RoadmapItem.getTotalAllocation
  have h := listFoldlAdd (fun (a : ItemAssignment) => a.allocation) item.assignedMembers 0
  simpa using h

theorem getTotalAllocation_commit (item : RoadmapItem) (memberName : String) (amount : ℚ) :
    (commitItem item memberName amount).getTotalAllocation =
      item.getTotalAllocation + amount := by
  rw [getTotalAllocation_eq, getTotalAllocation_eq]
  simp [commitItem]

theorem allocsSum_append (l1 l2 : List Allocation) :
    allocsSum (l1 ++ l2) = allocsSum l1 + allocsSum l2 := by
  simp [allocsSum]

theorem allocateLoop_conserve :
    ∀ (cands : List (ℕ × JsVal)) (ms : List TeamMember) (item : RoadmapItem)
      (allocs : List Allocation) (rem : ℚ),
      membersAllocSum (allocateLoop cands ms item allocs rem).members + allocsSum allocs =
        membersAllocSum ms + allocsSum (allocateLoop cands ms item allocs rem).allocations ∧
      (allocateLoop cands ms item allocs rem).item.getTotalAllocation + allocsSum allocs =
        item.getTotalAllocation + allocsSum (allocateLoop cands ms item allocs rem).allocations := by
  intro cands
  induction cands with
  | nil => intro ms item allocs rem; exact ⟨by rfl, by rfl⟩
  | cons c rest ih =>
    intro ms item allocs rem
    obtain ⟨j, sc⟩ := c
    by_cases h1 : rem ≤ 0
    · rw [allocateLoop_cons_done h1]
      exact ⟨rfl, rfl⟩
    · by_cases h2 : (ms.getD j default).getAvailableCapacity ≤ 0
      · rw [allocateLoop_cons_skip h1 h2]
        exact ih ms item allocs rem
      · by_cases h3 : 1/10 < min (min rem (ms.getD j default).getAvailableCapacity) (1/2)
        · rw [allocateLoop_cons_commit h1 h2 h3]
          obtain ⟨ihm, ihi⟩ := ih
            (ms.set j (commitMember (ms.getD j default) item.name
              (min (min rem (ms.getD j default).getAvailableCapacity) (1/2))))
            (commitItem item (ms.getD j default).name
              (min (min rem (ms.getD j default).getAvailableCapacity) (1/2)))
            (allocs ++ [Allocation.make (ms.getD j default) item
              (min (min rem (ms.getD j default).getAvailableCapacity) (1/2))])
            (rem - min (min rem (ms.getD j default).getAvailableCapacity) (1/2))
          have hms : membersAllocSum (ms.set j (commitMember (ms.getD j default) item.name
              (min (min rem (ms.getD j default).getAvailableCapacity) (1/2)))) =
              membersAllocSum ms +
                min (min rem (ms.getD j default).getAvailableCapacity) (1/2) := by
            unfold membersAllocSum
            rw [listSumMap_set (fun m => m.allocatedCapacity) _ default ms
              (commit_index_lt h2)]
            show (ms.map fun m => m.allocatedCapacity).sum -
                (ms.getD j default).allocatedCapacity +
                ((ms.getD j default).allocatedCapacity + _) = _
            ring
          have hal : allocsSum (allocs ++ [Allocation.make (ms.getD j default) item
              (min (min rem (ms.getD j default).getAvailableCapacity) (1/2))]) =
              allocsSum allocs +
                min (min rem (ms.getD j default).getAvailableCapacity) (1/2) := by
            rw [allocsSum_append]
            show allocsSum allocs + (allocsSum [_] : ℚ) = _
            unfold allocsSum
            simp [Allocation.make]
          have hit := getTotalAllocation_commit item (ms.getD j default).name
            (min (min rem (ms.getD j default).getAvailableCapacity) (1/2))
          constructor
          · rw [hms, hal] at ihm
            linarith
          · rw [hal, hit] at ihi
            linarith
        · rw [allocateLoop_cons_small h1 h2 h3]
          exact ih ms item allocs rem

theorem allocateItem_item_total (ms : List TeamMember) (item : RoadmapItem) :
    (allocateItem ms item).item.getTotalAllocation =
      (allocateLoop (stableSort scoreBefore (findPotentialAllocations ms item))
        ms item [] item.getRequiredCapacity).item.getTotalAllocation := rfl

theorem allocateItem_conserve (ms : List TeamMember) (item : RoadmapItem) :
    membersAllocSum (allocateItem ms item).members =
      membersAllocSum ms + allocsSum (allocateItem ms item).allocations ∧
    (allocateItem ms item).item.getTotalAllocation =
      item.getTotalAllocation + allocsSum (allocateItem ms item).allocations := by
  obtain ⟨hm, hi⟩ := allocateLoop_conserve
    (stableSort scoreBefore (findPotentialAllocations ms item)) ms item []
    item.getRequiredCapacity
  have hz : allocsSum ([] : List Allocation) = 0 := rfl
  rw [hz] at hm hi
  constructor
  · rw [allocateItem_members, allocateItem_allocations]
    linarith
  · rw [allocateItem_item_total, allocateItem_allocations]
    linarith

theorem runItems_conserve :
    ∀ (idxs : List ℕ) (s : RunState), (∀ i ∈ idxs, i < s.items.length) →
      membersAllocSum (runItems idxs s).members + allocsSum s.allocations =
        membersAllocSum s.members + allocsSum (runItems idxs s).allocations ∧
      itemsAllocSum (runItems idxs s).items + allocsSum s.allocations =
        itemsAllocSum s.items + allocsSum (runItems idxs s).allocations := by
  intro idxs
  induction idxs with
  | nil => intro s _; exact ⟨by rfl, by rfl⟩
  | cons i rest ih =>
    intro s hidx
    simp only [runItems]
    obtain ⟨ihm, ihi⟩ := ih ⟨(allocateItem s.members (s.items.getD i default)).members,
        s.items.set i (allocateItem s.members (s.items.getD i default)).item,
        s.allocations ++ (allocateItem s.members (s.items.getD i default)).allocations⟩
      (fun j hj => by
        show j < (s.items.set i _).length
        rw [List.length_set]
        exact hidx j (List.mem_cons_of_mem _ hj))
    obtain ⟨hstepm, hstepi⟩ := allocateItem_conserve s.members (s.items.getD i default)
    have hset : itemsAllocSum (s.items.set i
        (allocateItem s.members (s.items.getD i default)).item) =
        itemsAllocSum s.items - (s.items.getD i default).getTotalAllocation +
          (allocateItem s.members (s.items.getD i default)).item.getTotalAllocation := by
      unfold itemsAllocSum
      exact listSumMap_set RoadmapItem.getTotalAllocation _ default s.items
        (hidx i (List.mem_cons_self i rest))
    have happ := allocsSum_append s.allocations
      (allocateItem s.members (s.items.getD i default)).allocations
    constructor
    · rw [hstepm, happ] at ihm
      linarith
    · rw [hset, hstepi, happ] at ihi
      linarith

theorem membersAllocSum_reset (ms : List TeamMember) :
    membersAllocSum (ms.map resetMember) = 0 := by
  unfold membersAllocSum
  induction ms with
  | nil => rfl
  | cons m t ih => simpa [resetMember] using ih

theorem itemsAllocSum_reset (is : List RoadmapItem) :
    itemsAllocSum (is.map resetItem) = 0 := by
  unfold itemsAllocSum
  induction is with
  | nil => rfl
  | cons i t ih =>
    simp only [List.map_cons, List.map_map, List.sum_cons] at *
    rw [ih]
    show (resetItem i).getTotalAllocation + 0 = 0
    rw [show (resetItem i).getTotalAllocation = 0 from rfl]
    ring

theorem reportAllocsSum_map (allocs : List Allocation) :
    reportAllocsSum (allocs.map fun a =>
      (⟨a.member.name, a.itemName, a.allocation, a.score⟩ : ReportAllocation)) =
      allocsSum allocs := by
  unfold reportAllocsSum allocsSum
  rw [List.map_map]
  rfl

/-- C10: the allocation bookkeeping is conserved: after `optimize`, the sum of
the `allocatedCapacity` fields of the members, the sum of the reported allocation amounts,
and the sum of the `getTotalAllocation` values of the items all agree. -/
theorem optimize_conservation (ms : List TeamMember) (is : List RoadmapItem) :
    membersAllocSum (optimize ms is).teamMembers =
      reportAllocsSum (optimize ms is).allocations ∧
    reportAllocsSum (optimize ms is).allocations =
      itemsAllocSum (optimize ms is).roadmapItems := by
  have hcons : membersAllocSum (optimizeRun ms is).members + allocsSum [] =
      membersAllocSum (ms.map resetMember) + allocsSum (optimizeRun ms is).allocations ∧
      itemsAllocSum (optimizeRun ms is).items + allocsSum [] =
      itemsAllocSum (is.map resetItem) + allocsSum (optimizeRun ms is).allocations :=
    runItems_conserve (sortedItemIdxs (is.map resetItem))
      ⟨ms.map resetMember, is.map resetItem, []⟩
      (fun i hi => (sortedItemIdxs_mem _ i).mp hi)
  obtain ⟨hm, hi⟩ := hcons
  have hz : allocsSum ([] : List Allocation) = 0 := rfl
  rw [hz, membersAllocSum_reset] at hm
  rw [hz, itemsAllocSum_reset] at hi
  rw [optimize_teamMembers, optimize_roadmapItems, optimize_allocations,
    reportAllocsSum_map]
  constructor
  · linarith
  · linarith

/-! ### The engine leaves the immutable member fields unchanged -/

theorem commitMember_reset (m : TeamMember) (itemName : String) (amount : ℚ) :
    resetMember (commitMember m itemName amount) = resetMember m := rfl

theorem allocateLoop_members_resetMap :
    ∀ (cands : List (ℕ × JsVal)) (ms : List TeamMember) (item : RoadmapItem)
      (allocs : List Allocation) (rem : ℚ),
      (allocateLoop cands ms item allocs rem).members.map resetMember =
        ms.map resetMember := by
  intro cands
  induction cands with
  | nil => intro ms item allocs rem; rfl
  | cons c rest ih =>
    intro ms item allocs rem
    obtain ⟨j, sc⟩ := c
    by_cases h1 : rem ≤ 0
    · rw [allocateLoop_cons_done h1]
    · by_cases h2 : (ms.getD j default).getAvailableCapacity ≤ 0
      · rw [allocateLoop_cons_skip h1 h2]; exact ih ..
      · by_cases h3 : 1/10 < min (min rem (ms.getD j default).getAvailableCapacity) (1/2)
        · rw [allocateLoop_cons_commit h1 h2 h3, ih, List.map_set, commitMember_reset]
          have hgd : resetMember (ms.getD j default) =
              (ms.map resetMember).getD j default := by
            have h := listGetD_map resetMember ms default j
            rw [show resetMember default = default from rfl] at h
            exact h.symm
          rw [hgd, listSet_getD_self]
        · rw [allocateLoop_cons_small h1 h2 h3]; exact ih ..

theorem runItems_members_resetMap :
    ∀ (idxs : List ℕ) (s : RunState),
      (runItems idxs s).members.map resetMember = s.members.map resetMember := by
  intro idxs
  induction idxs with
  | nil => intro s; rfl
  | cons i rest ih =>
    intro s
    simp only [runItems]
    rw [ih]
    show (allocateItem s.members (s.items.getD i default)).members.map resetMember = _
    rw [allocateItem_members]
    exact allocateLoop_members_resetMap ..

theorem optimizeRun_members_resetMap (ms : List TeamMember) (is : List RoadmapItem) :
    (optimizeRun ms is).members.map resetMember = ms.map resetMember := by
  have h : (optimizeRun ms is).members.map resetMember =
      (ms.map resetMember).map resetMember :=
    runItems_members_resetMap (sortedItemIdxs (is.map resetItem))
      ⟨ms.map resetMember, is.map resetItem, []⟩
  rw [h, List.map_map]
  rfl

theorem optimizeRun_capacities (ms : List TeamMember) (is : List RoadmapItem) :
    (optimizeRun ms is).members.map (fun m => m.capacity) =
      ms.map (fun m => m.capacity) := by
  have h := optimizeRun_members_resetMap ms is
  have h1 : (optimizeRun ms is).members.map (fun m => m.capacity) =
      ((optimizeRun ms is).members.map resetMember).map (fun m => m.capacity) := by
    rw [List.map_map]; rfl
  have h2 : (ms.map resetMember).map (fun m => m.capacity) =
      ms.map (fun m => m.capacity) := by
    rw [List.map_map]; rfl
  rw [h1, h, h2]

/-! ### The utilization rate -/

theorem optimize_capacitySum (ms : List TeamMember) (is : List RoadmapItem) :
    ((optimize ms is).teamMembers.map fun m => m.capacity).sum =
      (ms.map fun m => m.capacity).sum := by
  rw [optimize_teamMembers, optimizeRun_capacities]

/-- C1 (amended): the `utilizationRate` field of the summary is
`Math.round(totalAllocatedCapacity / totalTeamCapacity * 100)` as a JavaScript
number; when the total team capacity is `0` (with nonnegative capacities) it
is `NaN`, not `0` — the division is unguarded. -/
theorem utilization_rate_amended (ms : List TeamMember) (is : List RoadmapItem)
    (hc : ∀ m ∈ ms, 0 ≤ m.capacity) :
    (((optimize ms is).teamMembers.map fun m => m.capacity).sum ≠ 0 →
      (optimize ms is).summary.utilizationRate =
        JsVal.num (jround ((((optimize ms is).teamMembers.map
            fun m => m.allocatedCapacity).sum /
          ((optimize ms is).teamMembers.map fun m => m.capacity).sum) * 100))) ∧
    (((optimize ms is).teamMembers.map fun m => m.capacity).sum = 0 →
      (optimize ms is).summary.utilizationRate = JsVal.nan) := by
  have hfoldC : (optimizeRun ms is).members.foldl (fun sum member => sum + member.capacity) 0 =
      ((optimize ms is).teamMembers.map fun m => m.capacity).sum := by
    rw [optimize_teamMembers, listFoldlAdd (fun (m : TeamMember) => m.capacity), zero_add]
  have hfoldA : (optimizeRun ms is).members.foldl
      (fun sum member => sum + member.allocatedCapacity) 0 =
      ((optimize ms is).teamMembers.map fun m => m.allocatedCapacity).sum := by
    rw [optimize_teamMembers,
      listFoldlAdd (fun (m : TeamMember) => m.allocatedCapacity), zero_add]
  constructor
  · intro hC
    rw [optimize_utilizationRate, hfoldC, hfoldA]
    rw [show jsDiv (((optimize ms is).teamMembers.map fun m => m.allocatedCapacity).sum)
        (((optimize ms is).teamMembers.map fun m => m.capacity).sum) =
        JsVal.num ((((optimize ms is).teamMembers.map fun m => m.allocatedCapacity).sum) /
          (((optimize ms is).teamMembers.map fun m => m.capacity).sum)) from by
      simp [jsDiv, hC]]
    rfl
  · intro hC
    have hcapsout : ∀ m ∈ (optimizeRun ms is).members, 0 ≤ m.capacity := by
      intro m hm
      have : m.capacity ∈ (optimizeRun ms is).members.map (fun m => m.capacity) :=
        List.mem_map.mpr ⟨m, hm, rfl⟩
      rw [optimizeRun_capacities] at this
      rcases List.mem_map.mp this with ⟨m0, hm0, hcap⟩
      rw [← hcap]
      exact hc m0 hm0
    have hC0 : ((optimizeRun ms is).members.map fun m => m.capacity).sum = 0 := by
      rw [optimizeRun_capacities]
      rw [optimize_capacitySum] at hC
      exact hC
    have hcapzero : ∀ m ∈ (optimizeRun ms is).members, m.capacity = 0 := by
      intro m hm
      exact listSumZero _ (fun x hx => by
          rcases List.mem_map.mp hx with ⟨m0, hm0, rfl⟩
          exact hcapsout m0 hm0) hC0 m.capacity (List.mem_map.mpr ⟨m, hm, rfl⟩)
    have hallzero : ∀ m ∈ (optimizeRun ms is).members, m.allocatedCapacity = 0 := by
      intro m hm
      obtain ⟨h0, hmax⟩ := optimizeRun_memOk ms is m hm
      rw [hcapzero m hm, max_self] at hmax
      exact le_antisymm hmax h0
    have hA : ((optimize ms is).teamMembers.map fun m => m.allocatedCapacity).sum = 0 := by
      rw [optimize_teamMembers]
      exact List.sum_eq_zero fun x hx => by
        rcases List.mem_map.mp hx with ⟨m0, hm0, rfl⟩
        exact hallzero m0 hm0
    have hCin : (ms.map fun m => m.capacity).sum = 0 := by
      rw [← optimize_capacitySum ms is]
      exact hC
    rw [optimize_utilizationRate, hfoldC, hfoldA, hA, optimize_capacitySum, hCin,
      show jsDiv 0 0 = JsVal.nan from by simp [jsDiv]]
    rfl

/-- Counterexample to C1 as stated: on an empty member list the summary
field `utilizationRate` is `NaN` (the unguarded `0/0`, kept by `Math.round`),
not `0`. -/
theorem utilization_rate_counterexample :
    (optimize [] []).summary.utilizationRate = JsVal.nan ∧
      JsVal.nan ≠ JsVal.num 0 := by decide!

/-- Witness for the amended C1 at a concrete run with nonzero capacity. -/
theorem utilization_rate_amended_witness :
    (optimize [exA] []).summary.utilizationRate =
      JsVal.num (jround ((((optimize [exA] []).teamMembers.map
          fun m => m.allocatedCapacity).sum /
        ((optimize [exA] []).teamMembers.map fun m => m.capacity).sum) * 100)) :=
  (utilization_rate_amended [exA] [] (by decide!)).1 (by decide!)

/-! ### The level penalty -/

theorem jsAdd_np_cases {a b : JsVal} (ha : (∃ q, a = .num q) ∨ a = .posInf)
    (hb : (∃ q, b = .num q) ∨ b = .posInf) :
    (∃ q, a.add b = .num q) ∨ a.add b = .posInf := by
  rcases ha with ⟨qa, rfl⟩ | rfl <;> rcases hb with ⟨qb, rfl⟩ | rfl
  · exact Or.inl ⟨qa + qb, rfl⟩
  · exact Or.inr rfl
  · exact Or.inr rfl
  · exact Or.inr rfl

theorem platformTerm_cases (m : TeamMember) (e : EffortBreakdown) (p : ℚ)
    (skills : List String) :
    (∃ q, platformTerm m e p skills = .num q) ∨ platformTerm m e p skills = .posInf := by
  unfold platformTerm
  by_cases hp : 0 < p
  · rw [if_pos hp]
    by_cases hm : memberHasPlatformSkill m skills = true
    · rw [if_pos hm]
      by_cases ht : e.total ≠ 0
      · exact Or.inl ⟨p / e.total * 30, by simp [jsDiv, ht, JsVal.mul]⟩
      · refine Or.inr ?_
        have ht0 : e.total = 0 := by push_neg at ht; exact ht
        simp only [jsDiv, ht0]
        norm_num [hp, JsVal.mul]
    · rw [if_neg hm]
      exact Or.inl ⟨0, rfl⟩
  · rw [if_neg hp]
    exact Or.inl ⟨0, rfl⟩

theorem calculatePlatformBonus_cases (m : TeamMember) (item : RoadmapItem) :
    (∃ q, calculatePlatformBonus m item = .num q) ∨
      calculatePlatformBonus m item = .posInf := by
  unfold calculatePlatformBonus
  split
  · exact Or.inl ⟨0, rfl⟩
  · rename_i e heq
    dsimp only []
    have h0 : (∃ q, (JsVal.num 0) = JsVal.num q) ∨ (JsVal.num 0) = .posInf :=
      Or.inl ⟨0, rfl⟩
    have h1 := jsAdd_np_cases h0 (platformTerm_cases m e e.ios platformSkillsIos)
    have h2 := jsAdd_np_cases h1 (platformTerm_cases m e e.android platformSkillsAndroid)
    have h3 := jsAdd_np_cases h2 (platformTerm_cases m e e.web platformSkillsWeb)
    have h4 := jsAdd_np_cases h3 (platformTerm_cases m e e.backend platformSkillsBackend)
    split_ifs
    · exact jsAdd_np_cases h4 (Or.inl ⟨15, rfl⟩)
    · exact h4

theorem scoreBase_cases (m : TeamMember) (item : RoadmapItem) :
    (∃ q, scoreBase m item = .num q) ∨ scoreBase m item = .posInf := by
  cases hEff : item.effortBreakdown with
  | none =>
    unfold scoreBase
    simp only [hEff]
    split_ifs <;> exact Or.inl ⟨_, rfl⟩
  | some e =>
    unfold scoreBase
    simp only [hEff]
    have h1 : (∃ q, ((JsVal.num 0).add (.num ((((item.requiredSkills.filter
        (fun skill => m.hasSkill skill)).length : ℚ)) /
          (((max 1 item.requiredSkills.length : ℕ) : ℚ)) * 35))).add
          (calculatePlatformBonus m item) = JsVal.num q) ∨
        ((JsVal.num 0).add (.num ((((item.requiredSkills.filter
        (fun skill => m.hasSkill skill)).length : ℚ)) /
          (((max 1 item.requiredSkills.length : ℕ) : ℚ)) * 35))).add
          (calculatePlatformBonus m item) = .posInf :=
      jsAdd_np_cases (Or.inl ⟨_, rfl⟩) (calculatePlatformBonus_cases m item)
    split_ifs
    · exact jsAdd_np_cases (jsAdd_np_cases h1 (Or.inl ⟨25, rfl⟩)) (Or.inl ⟨20, rfl⟩)
    · exact jsAdd_np_cases h1 (Or.inl ⟨20, rfl⟩)
    · exact jsAdd_np_cases h1 (Or.inl ⟨25, rfl⟩)
    · exact h1

theorem jsAddNum_congr (B : JsVal) {x y : ℚ} (h : x = y) :
    B.add (.num x) = B.add (.num y) := by rw [h]

theorem calculateScore_eq (m : TeamMember) (item : RoadmapItem) (f : ℚ) :
    calculateScore m item f =
      (scoreBase m item).add (.num (levelScore m item + item.priority * 5 + f * 15)) := by
  unfold calculateScore scoreBase levelScore
  cases hEff : item.effortBreakdown <;>
    simp only [hEff] <;>
    split_ifs <;>
    simp only [jsSub_num, jsAdd_num_num] <;>
    exact jsAddNum_congr _ (by ring)

theorem scoreBase_congr (m1 m2 : TeamMember) (item : RoadmapItem)
    (hsk : m1.skills = m2.skills) (hint : m1.interests = m2.interests)
    (hcg : m1.careerGoals = m2.careerGoals) :
    scoreBase m1 item = scoreBase m2 item := by
  have e1 : ∀ s, m1.hasSkill s = m2.hasSkill s := fun s => by
    simp [TeamMember.hasSkill, hsk]
  have e2 : ∀ s, m1.hasInterest s = m2.hasInterest s := fun s => by
    simp [TeamMember.hasInterest, hint]
  have e3 : ∀ s, m1.hasCareerGoal s = m2.hasCareerGoal s := fun s => by
    simp [TeamMember.hasCareerGoal, hcg]
  have e4 : calculatePlatformBonus m1 item = calculatePlatformBonus m2 item := by
    have ept : ∀ (e : EffortBreakdown) (p : ℚ) (sk : List String),
        platformTerm m1 e p sk = platformTerm m2 e p sk := by
      intro e p sk
      unfold platformTerm memberHasPlatformSkill
      rw [hsk]
    unfold calculatePlatformBonus
    cases hEff : item.effortBreakdown with
    | none => rfl
    | some e => simp only [hEff, ept, hsk]
  simp only [scoreBase, e1, e2, e3, e4]

theorem levelScore_ge (m : TeamMember) (item : RoadmapItem)
    (h : levelWeightTable (strToLower item.minLevel) ≤ m.getLevelWeight) :
    10 ≤ levelScore m item := by
  unfold levelScore
  rw [if_pos h]
  split_ifs <;> norm_num

theorem levelScore_penalty (m : TeamMember) (item : RoadmapItem)
    (h : m.getLevelWeight < levelWeightTable (strToLower item.minLevel)) :
    levelScore m item = -20 := by
  unfold levelScore
  rw [if_neg (not_le.mpr h)]

/-- C7 (amended): all else equal and with finite scores (in particular when
the effort data of the item cannot drive the platform-bonus division to infinity),
an under-leveled candidate scores strictly lower than an appropriately-leveled
one.  Without the finiteness condition both scores can be `Infinity` and tie. -/
theorem level_penalty_amended (m1 m2 : TeamMember) (item : RoadmapItem) (f : ℚ)
    (hsk : m1.skills = m2.skills) (hint : m1.interests = m2.interests)
    (hcg : m1.careerGoals = m2.careerGoals)
    (h1 : levelWeightTable (strToLower item.minLevel) ≤ m1.getLevelWeight)
    (h2 : m2.getLevelWeight < levelWeightTable (strToLower item.minLevel))
    (hfin : (calculateScore m1 item f).isFinite = true) :
    (calculateScore m2 item f).lt (calculateScore m1 item f) = true := by
  have hdec1 := calculateScore_eq m1 item f
  have hdec2 := calculateScore_eq m2 item f
  have hbase : scoreBase m1 item = scoreBase m2 item := scoreBase_congr m1 m2 item hsk hint hcg
  obtain ⟨b, hb⟩ : ∃ b, scoreBase m1 item = .num b := by
    rcases scoreBase_cases m1 item with ⟨q, hq⟩ | hq
    · exact ⟨q, hq⟩
    · rw [hdec1, hq] at hfin
      simp [JsVal.add, JsVal.isFinite] at hfin
  rw [hdec1, hdec2, ← hbase, hb]
  show JsVal.lt (.num (b + (levelScore m2 item + item.priority * 5 + f * 15)))
    (.num (b + (levelScore m1 item + item.priority * 5 + f * 15))) = true
  simp only [JsVal.lt, decide_eq_true_eq]
  have hg := levelScore_ge m1 item h1
  have hp := levelScore_penalty m2 item h2
  rw [hp]
  linarith

/-- Counterexample to C7 as stated: on an item whose effort breakdown has
`total = 0` but positive iOS effort, two candidates with a matching iOS skill
both score `Infinity`, so the under-leveled one does not score strictly lower
even though its level weight is below the required weight. -/
theorem level_penalty_counterexample :
    levelWeightTable (strToLower exInfItem.minLevel) ≤ exSen.getLevelWeight ∧
    exJun.getLevelWeight < levelWeightTable (strToLower exInfItem.minLevel) ∧
    exJun.skills = exSen.skills ∧ exJun.interests = exSen.interests ∧
    exJun.careerGoals = exSen.careerGoals ∧
    calculateScore exJun exInfItem (3/10) = .posInf ∧
    calculateScore exSen exInfItem (3/10) = .posInf ∧
    (calculateScore exJun exInfItem (3/10)).lt
      (calculateScore exSen exInfItem (3/10)) = false := by decide!

/-- Witness for the amended C7 at a concrete finite-score input. -/
theorem level_penalty_amended_witness :
    (calculateScore exJunPlain exPlainItem (3/10)).lt
      (calculateScore exSenPlain exPlainItem (3/10)) = true :=
  level_penalty_amended exSenPlain exJunPlain exPlainItem (3/10)
    rfl rfl rfl (by decide!) (by decide!) (by decide!)

/-! ### Idempotence of `optimize` -/

theorem runState_ext (a b : RunState) (h1 : a.members = b.members)
    (h2 : a.items = b.items) (h3 : a.allocations = b.allocations) : a = b := by
  cases a
  cases b
  simp_all

theorem commitItem_strip (item : RoadmapItem) (memberName : String) (amount : ℚ) :
    stripEngine (commitItem item memberName amount) = stripEngine item := rfl

theorem allocateLoop_item_strip :
    ∀ (cands : List (ℕ × JsVal)) (ms : List TeamMember) (item : RoadmapItem)
      (allocs : List Allocation) (rem : ℚ),
      stripEngine (allocateLoop cands ms item allocs rem).item = stripEngine item := by
  intro cands
  induction cands with
  | nil => intro ms item allocs rem; rfl
  | cons c rest ih =>
    intro ms item allocs rem
    obtain ⟨j, sc⟩ := c
    by_cases h1 : rem ≤ 0
    · rw [allocateLoop_cons_done h1]
    · by_cases h2 : (ms.getD j default).getAvailableCapacity ≤ 0
      · rw [allocateLoop_cons_skip h1 h2]; exact ih ..
      · by_cases h3 : 1/10 < min (min rem (ms.getD j default).getAvailableCapacity) (1/2)
        · rw [allocateLoop_cons_commit h1 h2 h3, ih, commitItem_strip]
        · rw [allocateLoop_cons_small h1 h2 h3]; exact ih ..

theorem allocateItem_item_strip (ms : List TeamMember) (item : RoadmapItem) :
    stripEngine (allocateItem ms item).item = stripEngine item := by
  have h : stripEngine (allocateItem ms item).item =
      stripEngine (allocateLoop (stableSort scoreBefore (findPotentialAllocations ms item))
        ms item [] item.getRequiredCapacity).item := rfl
  rw [h]
  exact allocateLoop_item_strip ..

theorem runItems_items_stripMap :
    ∀ (idxs : List ℕ) (s : RunState),
      (runItems idxs s).items.map stripEngine = s.items.map stripEngine := by
  intro idxs
  induction idxs with
  | nil => intro s; rfl
  | cons i rest ih =>
    intro s
    simp only [runItems]
    rw [ih]
    show (s.items.set i (allocateItem s.members (s.items.getD i default)).item).map
      stripEngine = s.items.map stripEngine
    rw [List.map_set, allocateItem_item_strip]
    have hgd : stripEngine (s.items.getD i default) =
        (s.items.map stripEngine).getD i default := by
      have h := listGetD_map stripEngine s.items default i
      rw [show stripEngine default = default from rfl] at h
      exact h.symm
    rw [hgd, listSet_getD_self]

theorem optimizeRun_items_stripMap (ms : List TeamMember) (is : List RoadmapItem) :
    (optimizeRun ms is).items.map stripEngine = is.map stripEngine := by
  have h : (optimizeRun ms is).items.map stripEngine =
      (is.map resetItem).map stripEngine :=
    runItems_items_stripMap (sortedItemIdxs (is.map resetItem))
      ⟨ms.map resetMember, is.map resetItem, []⟩
  rw [h, List.map_map]
  rfl

theorem allocateLoop_setStatus :
    ∀ (cands : List (ℕ × JsVal)) (ms : List TeamMember) (item : RoadmapItem)
      (allocs : List Allocation) (rem : ℚ) (x : Option ItemStatus),
      allocateLoop cands ms { item with allocationStatus := x } allocs rem =
        ⟨(allocateLoop cands ms item allocs rem).members,
         { (allocateLoop cands ms item allocs rem).item with allocationStatus := x },
         (allocateLoop cands ms item allocs rem).allocations,
         (allocateLoop cands ms item allocs rem).remaining⟩ := by
  intro cands
  induction cands with
  | nil => intro ms item allocs rem x; rfl
  | cons c rest ih =>
    intro ms item allocs rem x
    obtain ⟨j, sc⟩ := c
    by_cases h1 : rem ≤ 0
    · rw [allocateLoop_cons_done h1, allocateLoop_cons_done h1]
    · by_cases h2 : (ms.getD j default).getAvailableCapacity ≤ 0
      · rw [allocateLoop_cons_skip h1 h2, allocateLoop_cons_skip h1 h2]
        exact ih ..
      · by_cases h3 : 1/10 < min (min rem (ms.getD j default).getAvailableCapacity) (1/2)
        · rw [allocateLoop_cons_commit h1 h2 h3, allocateLoop_cons_commit h1 h2 h3]
          rw [show ({ item with allocationStatus := x } : RoadmapItem).name = item.name
            from rfl]
          rw [show commitItem { item with allocationStatus := x }
              (ms.getD j default).name
              (min (min rem (ms.getD j default).getAvailableCapacity) (1/2)) =
            { commitItem item (ms.getD j default).name
              (min (min rem (ms.getD j default).getAvailableCapacity) (1/2)) with
                allocationStatus := x } from rfl]
          rw [show Allocation.make (ms.getD j default) { item with allocationStatus := x }
              (min (min rem (ms.getD j default).getAvailableCapacity) (1/2)) =
            Allocation.make (ms.getD j default) item
              (min (min rem (ms.getD j default).getAvailableCapacity) (1/2)) from rfl]
          exact ih ..
        · rw [allocateLoop_cons_small h1 h2 h3, allocateLoop_cons_small h1 h2 h3]
          exact ih ..

theorem allocateItem_setStatus (ms : List TeamMember) (item : RoadmapItem)
    (x : Option ItemStatus) :
    allocateItem ms { item with allocationStatus := x } = allocateItem ms item := by
  simp only [allocateItem]
  rw [show findPotentialAllocations ms { item with allocationStatus := x } =
    findPotentialAllocations ms item from rfl]
  rw [show ({ item with allocationStatus := x } : RoadmapItem).getRequiredCapacity =
    item.getRequiredCapacity from rfl]
  rw [allocateLoop_setStatus]
  rfl

theorem allocateItem_congr_erase (ms : List TeamMember) (i1 i2 : RoadmapItem)
    (h : eraseStatus i1 = eraseStatus i2) :
    allocateItem ms i1 = allocateItem ms i2 := by
  have h2 : i2 = { i1 with allocationStatus := i2.allocationStatus } := by
    cases i1
    cases i2
    simp only [eraseStatus, RoadmapItem.mk.injEq] at h ⊢
    obtain ⟨e1, e2, e3, e4, e5, e6, e7, e8, e9, e10, _⟩ := h
    exact ⟨e1.symm, e2.symm, e3.symm, e4.symm, e5.symm, e6.symm, e7.symm, e8.symm,
      e9.symm, e10.symm, trivial⟩
  rw [h2]
  exact (allocateItem_setStatus ms i1 i2.allocationStatus).symm

theorem runItems_congr :
    ∀ (idxs : List ℕ) (ms : List TeamMember) (as : List Allocation)
      (is1 is2 : List RoadmapItem),
      is1.length = is2.length →
      (∀ k, eraseStatus (is1.getD k default) = eraseStatus (is2.getD k default)) →
      (runItems idxs ⟨ms, is1, as⟩).members = (runItems idxs ⟨ms, is2, as⟩).members ∧
      (runItems idxs ⟨ms, is1, as⟩).allocations =
        (runItems idxs ⟨ms, is2, as⟩).allocations ∧
      (∀ k, eraseStatus ((runItems idxs ⟨ms, is1, as⟩).items.getD k default) =
        eraseStatus ((runItems idxs ⟨ms, is2, as⟩).items.getD k default)) ∧
      (∀ k ∈ idxs, (runItems idxs ⟨ms, is1, as⟩).items.getD k default =
        (runItems idxs ⟨ms, is2, as⟩).items.getD k default) := by
  intro idxs
  induction idxs with
  | nil =>
    intro ms as is1 is2 hlen herase
    refine ⟨rfl, rfl, herase, ?_⟩
    intro k hk
    simp at hk
  | cons i rest ih =>
    intro ms as is1 is2 hlen herase
    simp only [runItems]
    have hstep : allocateItem ms (is2.getD i default) =
        allocateItem ms (is1.getD i default) :=
      allocateItem_congr_erase ms _ _ (herase i).symm
    rw [hstep]
    have hlen' : (is1.set i (allocateItem ms (is1.getD i default)).item).length =
        (is2.set i (allocateItem ms (is1.getD i default)).item).length := by
      simp [hlen]
    have herase' : ∀ k,
        eraseStatus ((is1.set i (allocateItem ms (is1.getD i default)).item).getD k default) =
        eraseStatus ((is2.set i (allocateItem ms (is1.getD i default)).item).getD k default) := by
      intro k
      by_cases hki : i = k
      · subst hki
        by_cases hlt : i < is1.length
        · rw [listGetD_set_self _ _ _ hlt, listGetD_set_self _ _ _ (hlen ▸ hlt)]
        · rw [List.set_eq_of_length_le (Nat.le_of_not_lt hlt),
            List.set_eq_of_length_le (Nat.le_of_not_lt (hlen ▸ hlt))]
          exact herase i
      · rw [listGetD_set_ne _ _ _ hki, listGetD_set_ne _ _ _ hki]
        exact herase k
    obtain ⟨ihm, iha, ihe, ihk⟩ := ih (allocateItem ms (is1.getD i default)).members
      (as ++ (allocateItem ms (is1.getD i default)).allocations) _ _ hlen' herase'
    refine ⟨ihm, iha, ihe, ?_⟩
    intro k hk
    by_cases hkr : k ∈ rest
    · exact ihk k hkr
    · have hki : k = i := by
        rcases List.mem_cons.mp hk with h | h
        · exact h
        · exact absurd h hkr
      subst hki
      rw [runItems_frame rest _ k hkr, runItems_frame rest _ k hkr]
      show (is1.set k (allocateItem ms (is1.getD k default)).item).getD k default =
        (is2.set k (allocateItem ms (is1.getD k default)).item).getD k default
      by_cases hlt : k < is1.length
      · rw [listGetD_set_self _ _ _ hlt, listGetD_set_self _ _ _ (hlen ▸ hlt)]
      · rw [List.set_eq_of_length_le (Nat.le_of_not_lt hlt),
          List.set_eq_of_length_le (Nat.le_of_not_lt (hlen ▸ hlt)),
          listGetD_eq_default _ _ (Nat.le_of_not_lt hlt),
          listGetD_eq_default _ _ (Nat.le_of_not_lt (hlen ▸ hlt))]

theorem sortedItemIdxs_congr (is1 is2 : List RoadmapItem)
    (hlen : is1.length = is2.length)
    (herase : ∀ k, eraseStatus (is1.getD k default) = eraseStatus (is2.getD k default)) :
    sortedItemIdxs is1 = sortedItemIdxs is2 := by
  unfold sortedItemIdxs
  rw [hlen]
  congr 1
  funext i j
  unfold itemBefore
  have hp : ∀ k, (is1.getD k default).priority = (is2.getD k default).priority := by
    intro k
    calc (is1.getD k default).priority
        = (eraseStatus (is1.getD k default)).priority := rfl
      _ = (eraseStatus (is2.getD k default)).priority := by rw [herase k]
      _ = (is2.getD k default).priority := rfl
  rw [hp i, hp j]

theorem optimizeRun_congr (ms1 ms2 : List TeamMember) (is1 is2 : List RoadmapItem)
    (hm : ms1.map resetMember = ms2.map resetMember)
    (hi : is1.map stripEngine = is2.map stripEngine) :
    optimizeRun ms1 is1 = optimizeRun ms2 is2 := by
  have hlen : is1.length = is2.length := by
    have h := congrArg List.length hi
    simpa using h
  have hstrip : ∀ k, stripEngine (is1.getD k default) = stripEngine (is2.getD k default) := by
    intro k
    have h1 := listGetD_map stripEngine is1 default k
    have h2 := listGetD_map stripEngine is2 default k
    rw [show stripEngine default = default from rfl] at h1 h2
    rw [← h1, ← h2, hi]
  have herase : ∀ k, eraseStatus ((is1.map resetItem).getD k default) =
      eraseStatus ((is2.map resetItem).getD k default) := by
    intro k
    have h1 := listGetD_map resetItem is1 default k
    have h2 := listGetD_map resetItem is2 default k
    rw [show resetItem default = default from rfl] at h1 h2
    rw [h1, h2]
    show stripEngine (is1.getD k default) = stripEngine (is2.getD k default)
    exact hstrip k
  have hlen' : (is1.map resetItem).length = (is2.map resetItem).length := by
    simpa using hlen
  have hidxs : sortedItemIdxs (is1.map resetItem) = sortedItemIdxs (is2.map resetItem) :=
    sortedItemIdxs_congr _ _ hlen' herase
  obtain ⟨hcm, hca, hce, hck⟩ := runItems_congr (sortedItemIdxs (is1.map resetItem))
    (ms1.map resetMember) [] (is1.map resetItem) (is2.map resetItem) hlen' herase
  have hrun1 : optimizeRun ms1 is1 =
      runItems (sortedItemIdxs (is1.map resetItem))
        ⟨ms1.map resetMember, is1.map resetItem, []⟩ := rfl
  have hrun2 : optimizeRun ms2 is2 =
      runItems (sortedItemIdxs (is1.map resetItem))
        ⟨ms1.map resetMember, is2.map resetItem, []⟩ := by
    show optimizeRun ms2 is2 = _
    rw [show optimizeRun ms2 is2 = runItems (sortedItemIdxs (is2.map resetItem))
      ⟨ms2.map resetMember, is2.map resetItem, []⟩ from rfl, ← hidxs, ← hm]
  rw [hrun1, hrun2]
  apply runState_ext
  · exact hcm
  · have hl1 : (runItems (sortedItemIdxs (is1.map resetItem))
        ⟨ms1.map resetMember, is1.map resetItem, []⟩).items.length =
        (is1.map resetItem).length :=
      runItems_items_length ..
    have hl2 : (runItems (sortedItemIdxs (is1.map resetItem))
        ⟨ms1.map resetMember, is2.map resetItem, []⟩).items.length =
        (is2.map resetItem).length :=
      runItems_items_length ..
    apply listEq_of_getD default
    · rw [hl1, hl2, hlen']
    · intro k
      by_cases hlt : k < (is1.map resetItem).length
      · exact hck k ((sortedItemIdxs_mem _ k).mpr hlt)
      · rw [listGetD_eq_default _ _ (by rw [hl1]; exact Nat.le_of_not_lt hlt),
          listGetD_eq_default _ _ (by rw [hl2, ← hlen']; exact Nat.le_of_not_lt hlt)]
  · exact hca

theorem optimize_congr (ms1 ms2 : List TeamMember) (is1 is2 : List RoadmapItem)
    (hm : ms1.map resetMember = ms2.map resetMember)
    (hi : is1.map stripEngine = is2.map stripEngine) :
    optimize ms1 is1 = optimize ms2 is2 := by
  have h := optimizeRun_congr ms1 ms2 is1 is2 hm hi
  show generateReport (optimizeRun ms1 is1).members (optimizeRun ms1 is1).items
    (optimizeRun ms1 is1).allocations = generateReport (optimizeRun ms2 is2).members
    (optimizeRun ms2 is2).items (optimizeRun ms2 is2).allocations
  rw [h]

/-- C5: running `optimize` again on the already-mutated entity lists yields
the identical report: the reset at the top of the second run erases all the
engine-written member/item state that the first run left, and the status
fields the reset does not clear are ignored and overwritten. -/
theorem optimize_idempotent (ms : List TeamMember) (is : List RoadmapItem) :
    optimize (optimize ms is).teamMembers (optimize ms is).roadmapItems =
      optimize ms is := by
  apply optimize_congr
  · rw [optimize_teamMembers, optimizeRun_members_resetMap]
  · rw [optimize_roadmapItems, optimizeRun_items_stripMap]

end TeamsAlloc
